import Mathlib

/-!
Verification development for the rscout result-processing pipeline.

The TypeScript sources are shallowly embedded: pure pipeline functions become
Lean functions over `List Char` / `String`, JavaScript numbers become `ℚ`
(or `ℝ` where `Math.log` is involved), JavaScript objects (metadata bags)
become insertion-ordered association lists, and the WHATWG `URL` platform
class is modelled by an explicit parser for `scheme://host/path?query`
references (ASCII, no percent-encoding; the modelled fragment is the one the
pipeline exercises).  JavaScript `Array.prototype.sort` and
`URLSearchParams.sort` are stable; they are modelled by a stable insertion
sort over a boolean comparator.
-/

/-! ## JavaScript string primitives (ASCII model) -/

/-- Whitespace class of JavaScript regular expressions (ASCII part of `\s`). -/
def isWsJS (c : Char) : Bool :=
  c = ' ' ∨ c = '\t' ∨ c = '\n' ∨ c = '\r' ∨ c = '\x0b' ∨ c = '\x0c'

/-- Word-character class `\w` of JavaScript regular expressions. -/
def isWordChar (c : Char) : Bool :=
  c.isAlpha ∨ c.isDigit ∨ c = '_'

/-- ASCII model of `String.prototype.toLowerCase` on a single character. -/
def jsCharLower (c : Char) : Char :=
  if 65 ≤ c.toNat ∧ c.toNat ≤ 90 then Char.ofNat (c.toNat + 32) else c

/-- Lowercasing a character list. -/
def lowerStr (l : List Char) : List Char := l.map jsCharLower

/-- `toLowerCase` on strings. -/
def jsLower (s : String) : String := String.mk (lowerStr s.toList)

/-- Split a character list at every occurrence of the separator `c`
    (model of `String.prototype.split` with a single-character separator:
    `"".split(c) = [""]`, separators at the ends produce empty pieces). -/
def splitOnChar (c : Char) : List Char → List (List Char)
  | [] => [[]]
  | x :: xs =>
    if x = c then [] :: splitOnChar c xs
    else
      match splitOnChar c xs with
      | [] => [[x]]
      | h :: t => (x :: h) :: t

/-- Trim ASCII whitespace from both ends (model of `String.prototype.trim`). -/
def trimChars (l : List Char) : List Char :=
  ((l.dropWhile isWsJS).reverse.dropWhile isWsJS).reverse

/-- Stable insertion of `x` into `l` in front of the first element `y`
    with `le x y` (auxiliary function of the stable sort model). -/
def insertBy (le : α → α → Bool) (x : α) : List α → List α
  | [] => [x]
  | y :: ys => if le x y then x :: y :: ys else y :: insertBy le x ys

/-- Stable insertion sort over a boolean comparator; models the stable
    `Array.prototype.sort` / `URLSearchParams.sort`. -/
def sortBy (le : α → α → Bool) : List α → List α
  | [] => []
  | x :: xs => insertBy le x (sortBy le xs)

/-! ## Code-unit string comparison and stable helpers -/

/-- Lexicographic code-unit comparison, the ordering used by the default
    `Array.prototype.sort` on strings and by `URLSearchParams.sort`. -/
def jsStrLe : List Char → List Char → Bool
  | [], _ => true
  | _ :: _, [] => false
  | a :: as, b :: bs =>
    if a.toNat < b.toNat then true
    else if b.toNat < a.toNat then false
    else jsStrLe as bs

/-- First-occurrence deduplication with an explicit seen set: the model of
    `[...new Set(xs)]`. -/
def dedupFirstAux [DecidableEq α] (seen : List α) : List α → List α
  | [] => []
  | x :: xs =>
    if x ∈ seen then dedupFirstAux seen xs
    else x :: dedupFirstAux (x :: seen) xs

def dedupFirst [DecidableEq α] (l : List α) : List α := dedupFirstAux [] l

/-! ## JavaScript numeric parsing -/

/-- Decimal value of a digit list. -/
def digitsToNat (l : List Char) : ℕ :=
  l.foldl (fun acc c => acc * 10 + (c.toNat - 48)) 0

/-- The longest leading digit run, or failure when there is none. -/
def leadingDigits (l : List Char) : Option ℕ :=
  let d := l.takeWhile Char.isDigit
  if d.isEmpty then none else some (digitsToNat d)

/-- Model of `parseInt(s, 10)`: skip leading whitespace, optional sign,
    then the longest digit run; `NaN` becomes `none`. -/
def parseIntJS (s : List Char) : Option ℤ :=
  match s.dropWhile isWsJS with
  | '-' :: rest => (leadingDigits rest).map (fun n => -(n : ℤ))
  | '+' :: rest => (leadingDigits rest).map (fun n => (n : ℤ))
  | t => (leadingDigits t).map (fun n => (n : ℤ))

/-! ## Regex-based tokenization helpers -/

/-- Replace every whitespace character by a plain space. -/
def wsToSpace (l : List Char) : List Char :=
  l.map (fun c => if isWsJS c then ' ' else c)

/-- Collapse runs of spaces to a single space. -/
def squeezeSpaces : List Char → List Char
  | [] => []
  | [c] => [c]
  | a :: b :: rest =>
    if a = ' ' ∧ b = ' ' then squeezeSpaces (b :: rest)
    else a :: squeezeSpaces (b :: rest)

/-- Model of `split(/\s+/)`. -/
def splitWsRuns (l : List Char) : List (List Char) :=
  splitOnChar ' ' (squeezeSpaces (wsToSpace l))

/-- Model of `replace(/[^\w\s]/g, ' ')`. -/
def nonWordToSpace (l : List Char) : List Char :=
  l.map (fun c => if isWordChar c ∨ isWsJS c then c else ' ')

/-- Model of `String.prototype.includes`. -/
def containsSub (sub : List Char) : List Char → Bool
  | [] => sub.isEmpty
  | c :: rest => sub.isPrefixOf (c :: rest) || containsSub sub rest

/-! ## Data model -/

/-- Values stored in a result metadata bag (the fragment of JavaScript
    values the pipeline puts there). -/
inductive MVal where
  | num (q : ℚ)
  | str (s : String)
  | strList (l : List String)
deriving DecidableEq

/-- A metadata object: insertion-ordered key/value pairs with unique keys. -/
abbrev Meta := List (String × MVal)

/-- Property read `m[k]`. -/
def objGet (m : Meta) (k : String) : Option MVal :=
  (m.find? (fun kv => kv.1 = k)).map (fun kv => kv.2)

/-- Property write `m[k] = v`: updates in place, or appends a new key. -/
def objSet (m : Meta) (k : String) (v : MVal) : Meta :=
  if (m.find? (fun kv => kv.1 = k)).isSome then
    m.map (fun kv => if kv.1 = k then (k, v) else kv)
  else m ++ [(k, v)]

/-- Object spread `{...a, ...b}`: keys of `a` in place (values of `b`
    winning on shared keys) followed by the keys only `b` has. -/
def objSpread (a b : Meta) : Meta :=
  (a.map (fun kv =>
    match objGet b kv.1 with
    | some v => (kv.1, v)
    | none => kv)) ++
  b.filter (fun kv => (objGet a kv.1).isNone)

/-- JavaScript truthiness of a metadata value (arrays are always truthy). -/
def truthy : MVal → Bool
  | .num q => decide (q ≠ 0)
  | .str s => decide (s ≠ "")
  | .strList _ => true

/-- The provider result record (`SearchResult` in `providers/types.ts`);
    timestamps are epoch milliseconds. -/
structure SearchResult where
  url : String
  title : String
  snippet : String
  source : String
  timestamp : ℚ
  metadata : Option Meta := none
deriving DecidableEq

/-- `ScoredResult`: the spread `{...result, score}` of `Scorer.score`. -/
structure ScoredResult where
  base : SearchResult
  score : ℚ
deriving DecidableEq


/-! ## WHATWG URL model

The pipeline calls the platform `URL` class.  It is modelled here for
absolute references of the form `scheme://[userinfo@]host[:port]/path?query#fragment`
over ASCII text without percent-encoding: the scheme and host are
lowercased, userinfo and port are dropped from `hostname`, an empty path
becomes `/`, and the fragment is discarded (the embedded caller always
clears it).  Inputs outside this fragment (no `:`-separated scheme, or no
`//` authority) fail to parse, matching the constructor throwing. -/

structure UrlParts where
  scheme : List Char
  host : List Char
  path : List Char
  query : List Char
deriving DecidableEq

/-- Scheme characters accepted after the leading letter. -/
def isSchemeChar (c : Char) : Bool :=
  c.isAlpha ∨ c.isDigit ∨ c = '+' ∨ c = '-' ∨ c = '.'

def isAuthorityEnd (c : Char) : Bool := c = '/' ∨ c = '?' ∨ c = '#'

def isPathEnd (c : Char) : Bool := c = '?' ∨ c = '#'

/-- Model of `new URL(s)`; `none` models the constructor throwing. -/
def parseUrl (l : List Char) : Option UrlParts :=
  let sch := l.takeWhile isSchemeChar
  if sch.isEmpty ∨ ¬ (sch.headD ' ').isAlpha then none
  else
    match l.drop sch.length with
    | ':' :: '/' :: '/' :: r2 =>
      let auth := r2.takeWhile (fun c => ¬ isAuthorityEnd c)
      let hostPort := (splitOnChar '@' auth).getLastD auth
      let host := hostPort.takeWhile (fun c => c ≠ ':')
      if host.isEmpty then none
      else
        let r3 := r2.drop auth.length
        let path := r3.takeWhile (fun c => ¬ isPathEnd c)
        let query :=
          match r3.drop path.length with
          | '?' :: q => q.takeWhile (fun c => c ≠ '#')
          | _ => []
        some ⟨lowerStr sch, lowerStr host, if path.isEmpty then ['/'] else path, query⟩
    | _ => none

/-- One `key=value` piece of a query string (`key` up to the first `=`). -/
def parseQSeg (seg : List Char) : List Char × List Char :=
  let k := seg.takeWhile (fun c => c ≠ '=')
  (k, (seg.drop k.length).drop 1)

/-- Model of the `URLSearchParams` pair list of a query string. -/
def parseQuery (q : List Char) : List (List Char × List Char) :=
  (splitOnChar '&' q).filterMap
    (fun seg => if seg.isEmpty then none else some (parseQSeg seg))

def renderQSeg (kv : List Char × List Char) : List Char := kv.1 ++ '=' :: kv.2

/-- Model of `URLSearchParams.toString` (no percent-encoding). -/
def renderQuery : List (List Char × List Char) → List Char
  | [] => []
  | [kv] => renderQSeg kv
  | kv :: rest => renderQSeg kv ++ '&' :: renderQuery rest

/-- Comparator of `URLSearchParams.sort`: stable, by name only. -/
def keyLe (a b : List Char × List Char) : Bool := jsStrLe a.1 b.1

/-- The tracking parameters removed by `Deduplicator.normalizeUrl`. -/
def trackingParamKeys : List (List Char) :=
  ["utm_source", "utm_medium", "utm_campaign", "utm_term", "utm_content",
   "fbclid", "gclid", "ref", "source", "mc_eid", "mc_cid"].map String.toList

def wwwDot : List Char := ['w', 'w', 'w', '.']

/-- Tracking-parameter deletion followed by the stable sort by name:
    the `searchParams` processing of `normalizeUrl`. -/
def normalizedParams (q : List Char) : List (List Char × List Char) :=
  sortBy keyLe ((parseQuery q).filter (fun kv => ¬ trackingParamKeys.contains kv.1))

/-- One leading `www.` stripped from a hostname. -/
def hostStripped (h : List Char) : List Char :=
  if wwwDot.isPrefixOf h then h.drop 4 else h

/-- One trailing slash stripped from a non-root path. -/
def pathStripped (p : List Char) : List Char :=
  if 1 < p.length ∧ p.getLastD ' ' = '/' then p.dropLast else p

/-- `Deduplicator.normalizeUrl` on character lists: drop the fragment,
    delete tracking parameters, sort the remaining parameters, lowercase
    the hostname and strip one leading `www.`, strip one trailing slash
    from a non-root path, and reconstruct; parse failure falls back to the
    lowercased raw string. -/
def normalizeUrlList (l : List Char) : List Char :=
  match parseUrl l with
  | none => lowerStr l
  | some u =>
    let host := hostStripped (lowerStr u.host)
    let path := pathStripped u.path
    let search := renderQuery (normalizedParams u.query)
    u.scheme ++ ':' :: '/' :: '/' :: host ++ path ++
      (if search.isEmpty then [] else '?' :: search)

/-- The well-behaved class of parsed URL records over which the model
    round-trips exactly like the platform parser: lowercase alphabetic
    scheme, lowercase host free of delimiter characters, a slash-led path
    without query/fragment delimiters. -/
def CleanUrl (u : UrlParts) : Prop :=
  u.scheme ≠ [] ∧ (u.scheme.headD ' ').isAlpha ∧
  (∀ c ∈ u.scheme, isSchemeChar c ∧ jsCharLower c = c) ∧
  u.host ≠ [] ∧
  (∀ c ∈ u.host, ¬ isAuthorityEnd c ∧ c ≠ '@' ∧ c ≠ ':' ∧ jsCharLower c = c) ∧
  u.path ≠ [] ∧ u.path.headD ' ' = '/' ∧
  (∀ c ∈ u.path, ¬ isPathEnd c)

instance (u : UrlParts) : Decidable (CleanUrl u) := by
  unfold CleanUrl
  infer_instance

/-- Query pairs whose serialization parses back unambiguously. -/
def CleanPairs (ps : List (List Char × List Char)) : Prop :=
  ∀ kv ∈ ps, ('&' ∉ kv.1 ∧ '=' ∉ kv.1 ∧ '#' ∉ kv.1) ∧ '&' ∉ kv.2 ∧ '#' ∉ kv.2

instance (ps : List (List Char × List Char)) : Decidable (CleanPairs ps) := by
  unfold CleanPairs
  infer_instance

/-! ## Deduplicator -/

/-- `DeduplicationConfig` from `config/schema.ts`. -/
structure DeduplicationConfig where
  urlNormalization : Bool
  contentFingerprint : Bool
  similarityThreshold : ℚ

namespace Deduplicator

def normalizeUrl (s : String) : String := String.mk (normalizeUrlList s.toList)

/-- The cleaning pass of `fingerprint`: lowercase, punctuation to spaces,
    collapse whitespace, trim. -/
def fpClean (l : List Char) : List Char :=
  trimChars (squeezeSpaces (wsToSpace (nonWordToSpace (lowerStr l))))

/-- Adjacent word triples, each sorted and joined (the truthiness guard of
    the source skips triples with an empty word). -/
def wordTrigrams : List (List Char) → List (List Char)
  | w1 :: w2 :: w3 :: rest =>
    (if w1.isEmpty ∨ w2.isEmpty ∨ w3.isEmpty then []
     else [(sortBy jsStrLe [w1, w2, w3]).flatten]) ++ wordTrigrams (w2 :: w3 :: rest)
  | _ => []

/-- `Deduplicator.fingerprint`. -/
def fingerprint (s : String) : String :=
  let cleaned := fpClean s.toList
  let words := (splitOnChar ' ' cleaned).filter (fun w => 2 < w.length)
  if words.length < 3 then String.mk cleaned
  else
    String.mk (List.intercalate ['|']
      ((sortBy jsStrLe (dedupFirst (wordTrigrams words))).take 10))

/-- `Deduplicator.generateKey`. -/
def generateKey (cfg : DeduplicationConfig) (r : SearchResult) : String :=
  let parts :=
    (if cfg.urlNormalization then [normalizeUrl r.url] else [r.url]) ++
    (if cfg.contentFingerprint then [fingerprint (r.title ++ " " ++ r.snippet)] else [])
  String.mk (List.intercalate [':'] (parts.map String.toList))

/-- The duplicate branch of `deduplicate`: spread the duplicate metadata
    over the survivor metadata, initialise a missing (or falsy) `sources`
    entry with the survivor provider, then push the duplicate provider. -/
def mergeDuplicate (existing dup : SearchResult) : SearchResult :=
  let md1 := objSpread (existing.metadata.getD []) (dup.metadata.getD [])
  let md2 :=
    match objGet md1 "sources" with
    | some v => if truthy v then md1 else objSet md1 "sources" (.strList [existing.source])
    | none => objSet md1 "sources" (.strList [existing.source])
  let md3 :=
    match objGet md2 "sources" with
    | some (.strList l) => objSet md2 "sources" (.strList (l ++ [dup.source]))
    | _ => md2
  { existing with metadata := some md3 }

/-- The fold of `deduplicate` over its insertion-ordered `seen` map; the
    in-place mutation of a survivor is the in-place map update. -/
def deduplicateAux (cfg : DeduplicationConfig) :
    List SearchResult → List (String × SearchResult) → List (String × SearchResult)
  | [], seen => seen
  | r :: rs, seen =>
    let key := generateKey cfg r
    match seen.find? (fun kv => kv.1 = key) with
    | none => deduplicateAux cfg rs (seen ++ [(key, r)])
    | some _ =>
      deduplicateAux cfg rs
        (seen.map (fun kv => if kv.1 = key then (key, mergeDuplicate kv.2 r) else kv))

/-- `Deduplicator.deduplicate`: the `unique` array holds the same objects
    as the `seen` map, in first-occurrence order, with all in-place
    metadata merges visible. -/
def deduplicate (cfg : DeduplicationConfig) (results : List SearchResult) : List SearchResult :=
  (deduplicateAux cfg results []).map (fun kv => kv.2)

end Deduplicator

/-- A result with its metadata erased: the identity of a record up to the
    in-place metadata merges `deduplicate` performs. -/
def eraseMeta (r : SearchResult) : SearchResult := { r with metadata := none }

/-- Specification-level first-occurrence filter for a key function. -/
def keepFirstAux (key : SearchResult → String) (seen : List String) :
    List SearchResult → List SearchResult
  | [] => []
  | r :: rs =>
    if key r ∈ seen then keepFirstAux key seen rs
    else r :: keepFirstAux key (key r :: seen) rs

def keepFirstByKey (key : SearchResult → String) (l : List SearchResult) : List SearchResult :=
  keepFirstAux key [] l



/-! ## Heuristic Scorer (`pipeline/scorer.ts`), over `ℚ`

`Date.now()` is passed explicitly as `now` (epoch milliseconds). -/

structure ScoringWeights where
  recency : ℚ
  domainAuthority : ℚ
  keywordRelevance : ℚ

structure ScoringConfig where
  weights : ScoringWeights
  trustedDomains : List String

/-- Remove the first occurrence of the pattern anywhere in the list:
    `hostname.replace('www.', '')`. -/
def removeFirstSub (pat : List Char) : List Char → List Char
  | [] => []
  | c :: rest =>
    if pat.isPrefixOf (c :: rest) then (c :: rest).drop pat.length
    else c :: removeFirstSub pat rest

def listEndsWith (suffix l : List Char) : Bool := suffix.isSuffixOf l

namespace Scorer

/-- `tokenize`: lowercase, non-word characters to spaces, split on
    whitespace, keep tokens longer than 2. -/
def tokenize (s : String) : List (List Char) :=
  ((splitWsRuns (nonWordToSpace (lowerStr s.toList))).filter (fun w => 2 < w.length))

/-- `recencyScore`: linear decay over a year with a floor of `0.1`. -/
def recencyScore (now ts : ℚ) : ℚ :=
  let age := now - ts
  let daysSince := age / (1000 * 60 * 60 * 24)
  max (1/10) (1 - daysSince / 365)

/-- The built-in quality-domain allowlist. -/
def qualityDomains : List String :=
  ["nature.com", "science.org", "arxiv.org", "medium.com", "dev.to",
   "hackernews.com", "techcrunch.com", "wired.com", "arstechnica.com"]

/-- `domainScore`: trusted exact-or-dot-suffix match 1.0, `.gov`/`.edu`
    0.9, quality list 0.8, default 0.5, parse failure 0.3. -/
def domainScore (trustedDomains : List String) (url : String) : ℚ :=
  match parseUrl url.toList with
  | none => 3/10
  | some u =>
    let hostname := removeFirstSub ("www.".toList) u.host
    if trustedDomains.any (fun t =>
        hostname = t.toList ∨ listEndsWith ('.' :: t.toList) hostname) then 1
    else if listEndsWith ".gov".toList hostname ∨ listEndsWith ".edu".toList hostname then 9/10
    else if qualityDomains.any (fun q =>
        hostname = q.toList ∨ listEndsWith ('.' :: q.toList) hostname) then 8/10
    else 1/2

/-- `relevanceScore`: weighted fraction of query terms found in title and
    snippet tokens, with an exact-phrase bonus clamped at 1. -/
def relevanceScore (r : SearchResult) (query : String) : ℚ :=
  let queryTerms := tokenize query
  let titleTerms := tokenize r.title
  let snippetTerms := tokenize r.snippet
  if queryTerms.length = 0 then 1/2
  else
    let titleMatches := (queryTerms.filter (fun t => titleTerms.contains t)).length
    let snippetMatches := (queryTerms.filter (fun t => snippetTerms.contains t)).length
    let titleScore := (titleMatches : ℚ) / (queryTerms.length : ℚ)
    let snippetScore := (snippetMatches : ℚ) / (queryTerms.length : ℚ)
    let combinedScore := titleScore * (6/10) + snippetScore * (4/10)
    if containsSub (lowerStr query.toList) (lowerStr r.title.toList) then
      min 1 (combinedScore + 2/10)
    else combinedScore

/-- `Scorer.score`: the weighted sum, spread onto the result. -/
def score (cfg : ScoringConfig) (now : ℚ) (r : SearchResult) (query : String) : ScoredResult :=
  let recency := recencyScore now r.timestamp
  let domain := domainScore cfg.trustedDomains r.url
  let relevance := relevanceScore r query
  ⟨r, recency * cfg.weights.recency + domain * cfg.weights.domainAuthority +
      relevance * cfg.weights.keywordRelevance⟩

/-- `Scorer.scoreAll`: score, then stable sort descending by score. -/
def scoreAll (cfg : ScoringConfig) (now : ℚ) (results : List SearchResult)
    (query : String) : List ScoredResult :=
  sortBy (fun a b => decide (b.score ≤ a.score)) (results.map (fun r => score cfg now r query))

end Scorer

/-! ## Query refiner (`pipeline/refiner.ts`), refined-query construction -/

namespace QueryRefiner

inductive Strategy where
  | expand
  | narrow
  | pivot

def joinSpace (l : List String) : String :=
  String.mk (List.intercalate [' '] (l.map String.toList))

/-- `buildRefinedQueries` for a refiner constructed on `originalQuery`. -/
def buildRefinedQueries (originalQuery : String) (selectedTerms : List String)
    (strategy : Strategy) : List String :=
  let queries : List String :=
    match strategy with
    | .expand =>
      (selectedTerms.map (fun term => originalQuery ++ " " ++ term)) ++
      (if 2 ≤ selectedTerms.length then
        [originalQuery ++ " " ++ joinSpace (selectedTerms.take 2)] else [])
    | .narrow =>
      selectedTerms.map (fun term => "\"" ++ originalQuery ++ "\" \"" ++ term ++ "\"")
    | .pivot =>
      selectedTerms ++ (if 2 ≤ selectedTerms.length then [joinSpace selectedTerms] else [])
  dedupFirst queries

end QueryRefiner

/-! ## Interactive selection expressions (`InteractiveSearch.parseSelection`) -/

namespace InteractiveSearch

/-- The push loop of a range token:
    `for (i = start; i <= end && i <= max; i++) if (i >= 1) push(i)`. -/
def rangePush (start endv maxv : ℤ) : List ℤ :=
  let stop := min endv maxv
  if start > stop then []
  else ((List.range' 0 ((stop - start).toNat + 1)).map (fun k : ℕ => start + (k : ℤ))).filter
    (fun i => 1 ≤ i)

/-- The numbers a single trimmed token contributes (`start && end`
    truthiness drops ranges with a zero or `NaN` endpoint; single tokens
    are kept when in `[1, max]`). -/
def parseSelectionPart (maxv : ℤ) (part : List Char) : List ℤ :=
  if part.contains '-' then
    let pieces := splitOnChar '-' part
    match parseIntJS (trimChars (pieces.getD 0 [])), parseIntJS (trimChars (pieces.getD 1 [])) with
    | some s, some e => if s ≠ 0 ∧ e ≠ 0 then rangePush s e maxv else []
    | _, _ => []
  else
    match parseIntJS part with
    | some n => if 1 ≤ n ∧ n ≤ maxv then [n] else []
    | none => []

/-- `parseSelection`: split on commas, trim, collect numbers, then
    `[...new Set(numbers)].sort((a, b) => a - b)`. -/
def parseSelection (input : String) (maxv : ℤ) : List ℤ :=
  let parts := (splitOnChar ',' input.toList).map trimChars
  let numbers := parts.flatMap (parseSelectionPart maxv)
  sortBy (fun a b => decide (a ≤ b)) (dedupFirst numbers)

end InteractiveSearch

/-! ## Fetcher (`pipeline/fetcher.ts`)

The concurrent fan-out/fan-in is modelled by its sequential aggregation:
every provider task settles independently and appends either its results
and name, or a tagged error record; `Promise.all` then resolves.  The
cache-miss/disabled path is the one modelled.  A provider is its name
together with the outcome of each successive `search` attempt. -/

structure ThrownError where
  message : String
  statusCode : Option ℤ
deriving DecidableEq

structure ProviderError where
  provider : String
  message : String
  statusCode : Option ℤ
deriving DecidableEq

structure ProviderModel where
  name : String
  attempts : ℕ → Except ThrownError (List SearchResult)

structure FetchResult where
  results : List SearchResult
  errors : List ProviderError
  providers : List String
deriving DecidableEq

namespace Fetcher

/-- `pRetry` model: attempt `i`, then up to `remaining` further attempts;
    the first success wins, otherwise the last error is thrown. -/
def retryFrom (att : ℕ → Except ThrownError (List SearchResult)) :
    ℕ → ℕ → Except ThrownError (List SearchResult)
  | 0, i => att i
  | remaining + 1, i =>
    match att i with
    | .ok rs => .ok rs
    | .error _ => retryFrom att remaining (i + 1)

/-- `fetchFromProvider` with retries (cache miss / cache disabled). -/
def fetchFromProvider (retries : ℕ) (p : ProviderModel) :
    Except ThrownError (List SearchResult) :=
  retryFrom p.attempts retries 0

/-- `Fetcher.fetchAll`: aggregate every settled provider task. -/
def fetchAll (retries : ℕ) (providers : List ProviderModel) : FetchResult :=
  providers.foldl
    (fun acc p =>
      match fetchFromProvider retries p with
      | .ok rs =>
        { acc with
          results := acc.results ++ rs
          providers := acc.providers ++ [p.name] }
      | .error e =>
        { acc with errors := acc.errors ++ [⟨p.name, e.message, e.statusCode⟩] })
    ⟨[], [], []⟩

end Fetcher

/-! ## Categorizer (`pipeline/categorizer.ts`) -/

inductive RuleType where
  | domain
  | keyword
  | urlPattern
deriving DecidableEq

/-- A categorization rule; the source accepts `string | string[]` and
    wraps a single string into a one-element array before matching, so the
    value is modelled as the wrapped list. -/
structure CategoryRule where
  type : RuleType
  value : List String
deriving DecidableEq

structure Category where
  name : String
  description : Option String := none
  rules : List CategoryRule
deriving DecidableEq

/-- `CategorizedResult`: the scored result with its `categories` labels. -/
structure CategorizedResult where
  base : ScoredResult
  categories : List String
deriving DecidableEq

namespace Categorizer

/-- The hostname used for `domain` rules (`''` when `new URL` throws). -/
def hostnameOf (url : String) : List Char :=
  match parseUrl url.toList with
  | some u => lowerStr u.host
  | none => []

/-- One rule matched against a result (any listed value matching). -/
def matchRule (hostname url text : List Char) (rule : CategoryRule) : Bool :=
  match rule.type with
  | .domain => rule.value.any (fun d => containsSub (lowerStr d.toList) hostname)
  | .keyword => rule.value.any (fun k => containsSub (lowerStr k.toList) text)
  | .urlPattern => rule.value.any (fun p => containsSub (lowerStr p.toList) url)

/-- A category matches when any of its rules does (the source's
    first-match `break` only short-circuits the same disjunction). -/
def categoryMatches (r : ScoredResult) (c : Category) : Bool :=
  c.rules.any (matchRule (hostnameOf r.base.url) (lowerStr r.base.url.toList)
    (lowerStr (r.base.title ++ " " ++ r.base.snippet).toList))

/-- The matched category names, in category-definition order. -/
def matchedNames (cats : List Category) (r : ScoredResult) : List String :=
  (cats.filter (categoryMatches r)).map (fun c => c.name)

/-- `matchCategories`, with the `General` sentinel. -/
def matchCategories (cats : List Category) (r : ScoredResult) : List String :=
  let ms := matchedNames cats r
  if ms.isEmpty then ["General"] else ms

/-- `Categorizer.categorize`. -/
def categorize (cats : List Category) (results : List ScoredResult) : List CategorizedResult :=
  results.map (fun r => ⟨r, matchCategories cats r⟩)

/-- `DEFAULT_CATEGORIES`. -/
def defaultCategories : List Category :=
  [⟨"Documentation", some "Official documentation and reference materials",
    [⟨.domain, ["docs.", "documentation.", "developer.", "devdocs."]⟩,
     ⟨.keyword, ["documentation", "docs", "api reference", "guide"]⟩,
     ⟨.urlPattern, ["/docs/", "/documentation/", "/api/", "/reference/"]⟩]⟩,
   ⟨"Tutorial", some "Step-by-step tutorials and how-to guides",
    [⟨.keyword, ["tutorial", "how to", "step by step", "getting started", "learn"]⟩,
     ⟨.urlPattern, ["/tutorial", "/guide/", "/learn/", "/howto/"]⟩]⟩,
   ⟨"Repository", some "Source code repositories and packages",
    [⟨.domain, ["github.com", "gitlab.com", "bitbucket.org", "npmjs.com", "pypi.org"]⟩,
     ⟨.urlPattern, ["/repository/", "/packages/", "/releases/"]⟩]⟩,
   ⟨"Discussion", some "Community discussions and Q&A",
    [⟨.domain, ["stackoverflow.com", "reddit.com", "discourse.", "discuss."]⟩,
     ⟨.keyword, ["question", "answer", "discussion", "forum", "community"]⟩]⟩,
   ⟨"Blog", some "Blog posts and articles",
    [⟨.domain, ["medium.com", "dev.to", "hashnode.", "substack.com"]⟩,
     ⟨.urlPattern, ["/blog/", "/posts/", "/articles/", "/news/"]⟩,
     ⟨.keyword, ["blog post", "article", "written by"]⟩]⟩,
   ⟨"News", some "News articles and announcements",
    [⟨.keyword, ["announced", "release", "update", "breaking", "news"]⟩,
     ⟨.urlPattern, ["/news/", "/announcements/", "/press/"]⟩]⟩,
   ⟨"Video", some "Video content",
    [⟨.domain, ["youtube.com", "vimeo.com", "twitch.tv"]⟩,
     ⟨.urlPattern, ["/watch", "/video/", "/videos/"]⟩]⟩,
   ⟨"Research", some "Academic and research papers",
    [⟨.domain, ["arxiv.org", "scholar.google", "researchgate.net", "academia.edu"]⟩,
     ⟨.keyword, ["paper", "research", "study", "abstract", "citation"]⟩,
     ⟨.urlPattern, ["/paper/", "/publication/", "/research/"]⟩]⟩]

end Categorizer



/-! ## BM25 ranker and hybrid scorer (`pipeline/bm25.ts`), over `ℝ`

`Math.log` forces these definitions into `ℝ` (hence they are not
executable).  The `HybridBM25Scorer` owns a fresh ranker whose index is
built from the exact result set being scored, so the index state is
modelled by recomputing the corpus statistics from `results`. -/

namespace BM25

/-- The ranker's `tokenize`: lowercase, non-word characters to spaces,
    split on whitespace, keep tokens longer than 1. -/
def tokenizeB (l : List Char) : List (List Char) :=
  (splitWsRuns (nonWordToSpace (lowerStr l))).filter (fun t => 1 < t.length)

/-- `getDocumentText`: the title twice (double weight) plus the snippet. -/
def docText (r : SearchResult) : List Char :=
  lowerStr ((r.title ++ " " ++ r.title ++ " " ++ r.snippet).toList)

def docTokens (r : SearchResult) : List (List Char) := tokenizeB (docText r)

def docLen (r : SearchResult) : ℕ := (docTokens r).length

/-- `avgDocLength = totalLength / max(totalDocs, 1)`. -/
noncomputable def avgdl (results : List SearchResult) : ℝ :=
  ((results.map docLen).sum : ℝ) / (max results.length 1 : ℕ)

/-- Document frequency of a term over the indexed corpus. -/
def dfOf (results : List SearchResult) (t : List Char) : ℕ :=
  (results.filter (fun r => (docTokens r).contains t)).length

/-- `computeIDF`: `ln(1 + (N - df + 0.5)/(df + 0.5))`. -/
noncomputable def idfOf (results : List SearchResult) (t : List Char) : ℝ :=
  Real.log (1 + ((results.length : ℝ) - (dfOf results t : ℝ) + 1/2) / ((dfOf results t : ℝ) + 1/2))

/-- `scoreDocument`: sum over query tokens present in the document of
    `idf * (tf * (k1 + 1)) / (tf + k1 * (1 - b + b * docLen/avgdl)) + delta`. -/
noncomputable def scoreDocument (k1 b delta : ℝ) (results : List SearchResult)
    (r : SearchResult) (queryTokens : List (List Char)) : ℝ :=
  queryTokens.foldl
    (fun s qt =>
      let tf := (docTokens r).count qt
      if tf = 0 then s
      else s + idfOf results qt *
        (((tf : ℝ) * (k1 + 1)) / ((tf : ℝ) + k1 * (1 - b + b * ((docLen r : ℝ) / avgdl results)))) + delta)
    0

/-- A result carrying its `bm25Score`. -/
structure BM25Scored where
  base : SearchResult
  bm25Score : ℝ

/-- `BM25Ranker.scoreAll` on a freshly indexed corpus: score each result
    and sort descending by BM25 score. -/
noncomputable def bmScoreAll (k1 b delta : ℝ) (results : List SearchResult)
    (query : String) : List BM25Scored :=
  let queryTokens := tokenizeB (lowerStr query.toList)
  sortBy (fun x y => decide (y.bm25Score ≤ x.bm25Score))
    (results.map (fun r => ⟨r, scoreDocument k1 b delta results r queryTokens⟩))

end BM25

structure HybridWeights where
  bm25 : ℝ
  recency : ℝ
  domainAuthority : ℝ

/-- The constructor default `{ bm25: 0.6, recency: 0.2, domainAuthority: 0.2 }`. -/
noncomputable def defaultHybridWeights : HybridWeights := ⟨6/10, 2/10, 2/10⟩

/-- A result of `HybridBM25Scorer.scoreAll`, carrying the blended `score`
    and the raw `bm25Score`. -/
structure HybridScored where
  base : SearchResult
  score : ℝ
  bm25Score : ℝ

namespace Hybrid

/-- The hybrid scorer's private `recencyScore`. -/
noncomputable def recencyScore (now ts : ℝ) : ℝ :=
  max (1/10) (1 - ((now - ts) / (1000 * 60 * 60 * 24)) / 365)

/-- The hybrid scorer's private `domainScore` (plain substring test
    against the trusted list, unlike the heuristic scorer's suffix test). -/
noncomputable def domainScore (trustedDomains : List String) (url : String) : ℝ :=
  match parseUrl url.toList with
  | none => 3/10
  | some u =>
    let hostname := removeFirstSub ("www.".toList) u.host
    if trustedDomains.any (fun d => containsSub d.toList hostname) then 1
    else if listEndsWith ".gov".toList hostname ∨ listEndsWith ".edu".toList hostname then 9/10
    else 1/2

/-- `Math.max(...bm25Scores, 1)`: the batch maximum floored at 1, the
    divisor the code actually uses. -/
noncomputable def normDivisor (scores : List ℝ) : ℝ := scores.foldl max 1

/-- The batch maximum itself (BM25 scores are non-negative), the divisor
    the specification describes. -/
noncomputable def batchMax (scores : List ℝ) : ℝ := scores.foldl max 0

/-- `HybridBM25Scorer.scoreAll` (fresh ranker, default BM25 parameters
    `k1 = 1.5`, `b = 0.75`, `delta = 0`). -/
noncomputable def scoreAll (w : HybridWeights) (trustedDomains : List String)
    (now : ℝ) (results : List SearchResult) (query : String) : List HybridScored :=
  let bm25Results := BM25.bmScoreAll (3/2) (3/4) 0 results query
  let maxBm25 := normDivisor (bm25Results.map (fun r => r.bm25Score))
  sortBy (fun x y => decide (y.score ≤ x.score))
    (bm25Results.map (fun r =>
      let normalizedBm25 := r.bm25Score / maxBm25
      let recency := recencyScore now ((r.base.timestamp : ℚ) : ℝ)
      let domain := domainScore trustedDomains r.base.url
      ⟨r.base,
       min 1 (normalizedBm25 * w.bm25 + recency * w.recency + domain * w.domainAuthority),
       r.bm25Score⟩))

/-- The claim's reading of the normalization, as a definition following
    the specification's words: divide each BM25 score by the maximum BM25
    score in the batch (no floor at 1), then blend and clamp. -/
noncomputable def scoreAllSpec (w : HybridWeights) (trustedDomains : List String)
    (now : ℝ) (results : List SearchResult) (query : String) : List HybridScored :=
  let bm25Results := BM25.bmScoreAll (3/2) (3/4) 0 results query
  let maxBm25 := batchMax (bm25Results.map (fun r => r.bm25Score))
  sortBy (fun x y => decide (y.score ≤ x.score))
    (bm25Results.map (fun r =>
      let normalizedBm25 := r.bm25Score / maxBm25
      let recency := recencyScore now ((r.base.timestamp : ℚ) : ℝ)
      let domain := domainScore trustedDomains r.base.url
      ⟨r.base,
       min 1 (normalizedBm25 * w.bm25 + recency * w.recency + domain * w.domainAuthority),
       r.bm25Score⟩))

end Hybrid



/-! ## Concrete fixtures used by witnesses and counterexamples -/

/-- Two results with equal deduplication key whose metadata share key `a`. -/
def dupA : SearchResult :=
  ⟨"https://example.com/page", "Test", "Content here", "brave", 0, some [("a", .num 1)]⟩

def dupB : SearchResult :=
  ⟨"https://example.com/page", "Test", "Content here", "duckduckgo", 0, some [("a", .num 2)]⟩

/-- The schema-default deduplication configuration. -/
def dedupCfg : DeduplicationConfig := ⟨true, true, 17/20⟩

/-- A scoring configuration with every weight at its schema maximum 1. -/
def cfg110 : ScoringConfig := ⟨⟨1, 1, 1⟩, ["github.com"]⟩

/-- The schema-default scoring configuration (weights 0.3/0.2/0.5). -/
def defaultScoringCfg : ScoringConfig :=
  ⟨⟨3/10, 1/5, 1/2⟩, ["wikipedia.org", "github.com", "developer.mozilla.org", "stackoverflow.com"]⟩

/-- The metadata the duplicate pair merges to (duplicate value wins on `a`). -/
def mergedMetaAB : Meta := [("a", .num 2), ("sources", .strList ["brave", "duckduckgo"])]

/-- A result that maximises every scoring signal for query `foo`. -/
def rOver : SearchResult := ⟨"https://github.com/x", "foo", "", "s", 0, none⟩

def sampleOk : SearchResult :=
  ⟨"https://github.com/typescript", "TypeScript GitHub", "TypeScript repository", "duckduckgo", 0, none⟩

def err500 : ThrownError := ⟨"HTTP 500", some 500⟩

/-- A one-result batch whose BM25 score is strictly between 0 and 1. -/
def rBM : SearchResult := ⟨"x", "aa", "", "s", 0, none⟩


/-! ## Supporting lemmas and claim theorems -/

theorem toNat_ofNat_valid {n : ℕ} (h : n.isValidChar) : (Char.ofNat n).toNat = n := by
  simp only [Char.ofNat, h, dite_true, Char.ofNatAux, Char.toNat]
  rfl

theorem jsCharLower_toNat_lower (c : Char)
    (h : 65 ≤ c.toNat ∧ c.toNat ≤ 90) : (jsCharLower c).toNat = c.toNat + 32 := by
  have hv : (c.toNat + 32).isValidChar := Or.inl (by omega)
  simp only [jsCharLower, if_pos h]
  exact toNat_ofNat_valid hv

theorem jsCharLower_idem (c : Char) :
    jsCharLower (jsCharLower c) = jsCharLower c := by
  by_cases h : 65 ≤ c.toNat ∧ c.toNat ≤ 90
  · have ht := jsCharLower_toNat_lower c h
    have : ¬ (65 ≤ (jsCharLower c).toNat ∧ (jsCharLower c).toNat ≤ 90) := by omega
    simp only [jsCharLower] at *
    rw [if_neg this]
  · have hc : jsCharLower c = c := by rw [jsCharLower, if_neg h]
    rw [hc, hc]

theorem lowerStr_idem (l : List Char) : lowerStr (lowerStr l) = lowerStr l := by
  simp only [lowerStr, List.map_map]
  exact List.map_congr_left (fun c _ => jsCharLower_idem c)

theorem splitOnChar_ne_nil (c : Char) (l : List Char) : splitOnChar c l ≠ [] := by
  induction l with
  | nil => simp [splitOnChar]
  | cons x xs ih =>
    simp only [splitOnChar]
    by_cases h : x = c
    · simp [h]
    · rw [if_neg h]
      rcases hs : splitOnChar c xs with _ | ⟨hd, tl⟩ <;> simp

/-- `splitOnChar` over a separator-free list returns the list whole. -/
theorem splitOnChar_of_not_mem {c : Char} {l : List Char} (h : c ∉ l) :
    splitOnChar c l = [l] := by
  induction l with
  | nil => rfl
  | cons x xs ih =>
    simp only [List.mem_cons, not_or] at h
    have hx : x ≠ c := fun hc => h.1 hc.symm
    simp only [splitOnChar, if_neg hx, ih h.2]

/-- Splitting `l ++ c :: r` when `l` is separator-free peels off `l`. -/
theorem splitOnChar_append {c : Char} {l r : List Char} (h : c ∉ l) :
    splitOnChar c (l ++ c :: r) = l :: splitOnChar c r := by
  induction l with
  | nil => simp [splitOnChar]
  | cons x xs ih =>
    simp only [List.mem_cons, not_or] at h
    have hx : x ≠ c := fun hc => h.1 hc.symm
    have hxs := ih h.2
    simp only [List.cons_append, splitOnChar, if_neg hx, List.append_eq, hxs]

theorem insertBy_perm (le : α → α → Bool) (x : α) (l : List α) :
    List.Perm (insertBy le x l) (x :: l) := by
  induction l with
  | nil => rfl
  | cons y ys ih =>
    simp only [insertBy]
    by_cases h : le x y
    · rw [if_pos h]
    · rw [if_neg h]
      exact (ih.cons y).trans (List.Perm.swap x y ys)

theorem sortBy_perm (le : α → α → Bool) (l : List α) :
    List.Perm (sortBy le l) l := by
  induction l with
  | nil => rfl
  | cons x xs ih => exact (insertBy_perm le x (sortBy le xs)).trans (ih.cons x)

theorem mem_sortBy {le : α → α → Bool} {l : List α} {a : α} :
    a ∈ sortBy le l ↔ a ∈ l :=
  (sortBy_perm le l).mem_iff

theorem pairwise_insertBy {le : α → α → Bool}
    (tr : ∀ a b c, le a b → le b c → le a c)
    (total : ∀ a b, le a b ∨ le b a) {x : α} {l : List α}
    (h : l.Pairwise (fun a b => le a b)) :
    (insertBy le x l).Pairwise (fun a b => le a b) := by
  induction l with
  | nil => simp [insertBy]
  | cons y ys ih =>
    rcases h with _ | ⟨hy, hys⟩
    simp only [insertBy]
    by_cases hxy : le x y
    · rw [if_pos hxy]
      refine List.Pairwise.cons ?_ (List.Pairwise.cons hy hys)
      intro b hb
      rcases List.mem_cons.mp hb with rfl | hb
      · exact hxy
      · exact tr x y b hxy (hy b hb)
    · rw [if_neg hxy]
      refine List.Pairwise.cons ?_ (ih hys)
      intro b hb
      rcases List.mem_cons.mp ((insertBy_perm le x ys).mem_iff.mp hb) with rfl | hb
      · rcases total y b with h1 | h1
        · exact h1
        · exact absurd h1 hxy
      · exact hy b hb

theorem pairwise_sortBy (le : α → α → Bool)
    (tr : ∀ a b c, le a b → le b c → le a c)
    (total : ∀ a b, le a b ∨ le b a) (l : List α) :
    (sortBy le l).Pairwise (fun a b => le a b) := by
  induction l with
  | nil => simp [sortBy]
  | cons x xs ih => exact pairwise_insertBy tr total ih

/-- Inserting below a chain head leaves a sorted list unchanged, hence
    sorting a sorted list is the identity (stability of the model sort). -/
theorem sortBy_of_chain {le : α → α → Bool} {l : List α}
    (h : List.Chain' (fun a b => le a b) l) : sortBy le l = l := by
  induction l with
  | nil => rfl
  | cons x xs ih =>
    have hxs : List.Chain' (fun a b => le a b) xs := h.tail
    simp only [sortBy, ih hxs]
    cases xs with
    | nil => rfl
    | cons y ys =>
      have hxy : le x y := List.chain'_cons.mp h |>.1
      simp [insertBy, hxy]

theorem jsStrLe_total (a b : List Char) : jsStrLe a b ∨ jsStrLe b a := by
  induction a generalizing b with
  | nil => left; rfl
  | cons x xs ih =>
    cases b with
    | nil => right; rfl
    | cons y ys =>
      by_cases h1 : x.toNat < y.toNat
      · left; simp [jsStrLe, h1]
      · by_cases h2 : y.toNat < x.toNat
        · right; simp [jsStrLe, h2]
        · rcases ih ys with h | h
          · left; simp [jsStrLe, h1, h2, h]
          · right; simp [jsStrLe, h1, h2, h]

theorem jsStrLe_trans (a b c : List Char)
    (hab : jsStrLe a b) (hbc : jsStrLe b c) : jsStrLe a c := by
  induction a generalizing b c with
  | nil => rfl
  | cons x xs ih =>
    cases b with
    | nil => simp [jsStrLe] at hab
    | cons y ys =>
      cases c with
      | nil => simp [jsStrLe] at hbc
      | cons z zs =>
        simp only [jsStrLe] at hab hbc ⊢
        by_cases hxy : x.toNat < y.toNat <;> by_cases hyz : y.toNat < z.toNat <;>
          simp_all only [if_pos, if_neg, if_true, if_false]
        · have : x.toNat < z.toNat := Nat.lt_trans hxy hyz
          simp [this]
        · have hzy : ¬ z.toNat < y.toNat := by
            by_contra hc
            simp [hc] at hbc
          have hyz2 : y.toNat = z.toNat := by omega
          have : x.toNat < z.toNat := by omega
          simp [this]
        · have hyx : ¬ y.toNat < x.toNat := by
            by_contra hc
            simp [hc] at hab
          have : x.toNat < z.toNat := by omega
          simp [this]
        · have hyx : ¬ y.toNat < x.toNat := by
            by_contra hc
            simp [hc] at hab
          have hzy : ¬ z.toNat < y.toNat := by
            by_contra hc
            simp [hc] at hbc
          have h1 : ¬ x.toNat < z.toNat := by omega
          have h2 : ¬ z.toNat < x.toNat := by omega
          simp only [if_neg h1, if_neg h2]
          have hx : ¬ x.toNat < y.toNat := hxy
          have hy2 : ¬ y.toNat < x.toNat := hyx
          simp only [if_neg hx, if_neg hy2] at hab
          simp only [if_neg hyz, if_neg hzy] at hbc
          exact ih ys zs hab hbc

theorem mem_dedupFirstAux [DecidableEq α] {seen l : List α} {a : α} :
    a ∈ dedupFirstAux seen l ↔ a ∈ l ∧ a ∉ seen := by
  induction l generalizing seen with
  | nil => simp [dedupFirstAux]
  | cons x xs ih =>
    simp only [dedupFirstAux]
    by_cases hx : x ∈ seen
    · rw [if_pos hx, ih]
      constructor
      · rintro ⟨h1, h2⟩
        exact ⟨List.mem_cons_of_mem _ h1, h2⟩
      · rintro ⟨h1, h2⟩
        rcases List.mem_cons.mp h1 with rfl | h1
        · exact absurd hx h2
        · exact ⟨h1, h2⟩
    · rw [if_neg hx]
      simp only [List.mem_cons, ih]
      constructor
      · rintro (rfl | ⟨h1, h2⟩)
        · exact ⟨Or.inl rfl, hx⟩
        · simp only [List.mem_cons, not_or] at h2
          exact ⟨Or.inr h1, h2.2⟩
      · rintro ⟨rfl | h1, h2⟩
        · exact Or.inl rfl
        · by_cases hax : a = x
          · exact Or.inl hax
          · exact Or.inr ⟨h1, by simp [hax, h2]⟩

theorem nodup_dedupFirstAux [DecidableEq α] (seen l : List α) :
    (dedupFirstAux seen l).Nodup := by
  induction l generalizing seen with
  | nil => simp [dedupFirstAux]
  | cons x xs ih =>
    simp only [dedupFirstAux]
    by_cases hx : x ∈ seen
    · rw [if_pos hx]; exact ih seen
    · rw [if_neg hx]
      refine List.Nodup.cons ?_ (ih (x :: seen))
      intro hmem
      exact (mem_dedupFirstAux.mp hmem).2 (List.mem_cons_self x seen)

theorem nodup_dedupFirst [DecidableEq α] (l : List α) : (dedupFirst l).Nodup :=
  nodup_dedupFirstAux [] l

theorem mem_dedupFirst [DecidableEq α] {l : List α} {a : α} :
    a ∈ dedupFirst l ↔ a ∈ l := by
  rw [dedupFirst, mem_dedupFirstAux]
  simp


theorem recency_bounds {now ts : ℚ} (h : ts ≤ now) :
    1/10 ≤ Scorer.recencyScore now ts ∧ Scorer.recencyScore now ts ≤ 1 := by
  unfold Scorer.recencyScore
  constructor
  · exact le_max_left _ _
  · apply max_le (by norm_num)
    have hd : 0 ≤ ((now - ts) / (1000 * 60 * 60 * 24)) / 365 := by
      apply div_nonneg (div_nonneg (by linarith) (by norm_num)) (by norm_num)
    linarith

theorem domain_bounds (td : List String) (url : String) :
    0 ≤ Scorer.domainScore td url ∧ Scorer.domainScore td url ≤ 1 := by
  unfold Scorer.domainScore
  rcases hp : parseUrl url.toList with _ | u
  · norm_num
  · simp only
    split_ifs <;> norm_num

theorem relevance_bounds (r : SearchResult) (q : String) :
    0 ≤ Scorer.relevanceScore r q ∧ Scorer.relevanceScore r q ≤ 1 := by
  unfold Scorer.relevanceScore
  simp only
  by_cases h0 : (Scorer.tokenize q).length = 0
  · rw [if_pos h0]
    norm_num
  · simp only [h0, if_false]
    have hqpos : (0 : ℚ) < ((Scorer.tokenize q).length : ℚ) := by
      have : 0 < (Scorer.tokenize q).length := Nat.pos_of_ne_zero h0
      exact_mod_cast this
    have htle : (((Scorer.tokenize q).filter (fun t => (Scorer.tokenize r.title).contains t)).length : ℚ)
        ≤ ((Scorer.tokenize q).length : ℚ) := by
      exact_mod_cast List.length_filter_le _ _
    have hsle : (((Scorer.tokenize q).filter (fun t => (Scorer.tokenize r.snippet).contains t)).length : ℚ)
        ≤ ((Scorer.tokenize q).length : ℚ) := by
      exact_mod_cast List.length_filter_le _ _
    have ht0 : (0 : ℚ) ≤ (((Scorer.tokenize q).filter
        (fun t => (Scorer.tokenize r.title).contains t)).length : ℚ) := by positivity
    have hs0 : (0 : ℚ) ≤ (((Scorer.tokenize q).filter
        (fun t => (Scorer.tokenize r.snippet).contains t)).length : ℚ) := by positivity
    set tm := (((Scorer.tokenize q).filter (fun t => (Scorer.tokenize r.title).contains t)).length : ℚ)
    set sm := (((Scorer.tokenize q).filter (fun t => (Scorer.tokenize r.snippet).contains t)).length : ℚ)
    set qn := ((Scorer.tokenize q).length : ℚ)
    have hts : tm / qn ≤ 1 := (div_le_one hqpos).mpr htle
    have hss : sm / qn ≤ 1 := (div_le_one hqpos).mpr hsle
    have hts0 : 0 ≤ tm / qn := div_nonneg ht0 (le_of_lt hqpos)
    have hss0 : 0 ≤ sm / qn := div_nonneg hs0 (le_of_lt hqpos)
    split_ifs
    · constructor
      · apply le_min (by norm_num)
        linarith
      · exact min_le_left _ _
    · constructor <;> linarith

/-- C2 (amended): the heuristic score lies in `[0, 1]` provided the
configured weights are non-negative and sum to at most 1 (as the schema
defaults do) and the result timestamp is not in the future; the code
performs no clamping, so outside these conditions the bound can fail. -/
theorem C2_score_bounds :
    ∀ (cfg : ScoringConfig) (now : ℚ) (q : String),
      0 ≤ cfg.weights.recency → 0 ≤ cfg.weights.domainAuthority →
      0 ≤ cfg.weights.keywordRelevance →
      cfg.weights.recency + cfg.weights.domainAuthority + cfg.weights.keywordRelevance ≤ 1 →
      (∀ r : SearchResult, r.timestamp ≤ now →
        0 ≤ (Scorer.score cfg now r q).score ∧ (Scorer.score cfg now r q).score ≤ 1) ∧
      (∀ rs : List SearchResult, (∀ r ∈ rs, r.timestamp ≤ now) →
        ∀ x ∈ Scorer.scoreAll cfg now rs q, 0 ≤ x.score ∧ x.score ≤ 1) := by
  intro cfg now q hw1 hw2 hw3 hsum
  have key : ∀ r : SearchResult, r.timestamp ≤ now →
      0 ≤ (Scorer.score cfg now r q).score ∧ (Scorer.score cfg now r q).score ≤ 1 := by
    intro r hts
    obtain ⟨hr1, hr2⟩ := recency_bounds hts
    obtain ⟨hd1, hd2⟩ := domain_bounds cfg.trustedDomains r.url
    obtain ⟨hv1, hv2⟩ := relevance_bounds r q
    unfold Scorer.score
    simp only
    constructor
    · have : (0:ℚ) ≤ Scorer.recencyScore now r.timestamp := by linarith
      positivity
    · have h1 : Scorer.recencyScore now r.timestamp * cfg.weights.recency ≤ cfg.weights.recency := by
        nlinarith
      have h2 : Scorer.domainScore cfg.trustedDomains r.url * cfg.weights.domainAuthority ≤
          cfg.weights.domainAuthority := by
        nlinarith
      have h3 : Scorer.relevanceScore r q * cfg.weights.keywordRelevance ≤
          cfg.weights.keywordRelevance := by
        nlinarith
      linarith
  refine ⟨key, ?_⟩
  intro rs hall x hx
  rw [Scorer.scoreAll, mem_sortBy] at hx
  obtain ⟨r, hr, rfl⟩ := List.mem_map.mp hx
  exact key r (hall r hr)

/-- C2 witness: the schema-default weights on a present-day result. -/
theorem C2_score_bounds_witness :
    0 ≤ (Scorer.score defaultScoringCfg 0 sampleOk "typescript").score ∧
    (Scorer.score defaultScoringCfg 0 sampleOk "typescript").score ≤ 1 :=
  (C2_score_bounds defaultScoringCfg 0 "typescript" (by norm_num [defaultScoringCfg])
    (by norm_num [defaultScoringCfg]) (by norm_num [defaultScoringCfg])
    (by norm_num [defaultScoringCfg])).1 sampleOk (le_refl 0)

/-- C2 counterexample: with weights 1/1/1 (each inside the schema bound
`[0, 1]`) the unclamped score of a trusted, fresh, phrase-matching result
is 2.8, above 1: `Scorer.score` clamps nothing. -/
theorem C2_score_bounds_counterexample :
    1 < (Scorer.score cfg110 0 rOver "foo").score := by
  have hrec : Scorer.recencyScore 0 rOver.timestamp = 1 := by
    unfold Scorer.recencyScore rOver
    norm_num
  have hdom : Scorer.domainScore cfg110.trustedDomains rOver.url = 1 := by decide
  have hrel : Scorer.relevanceScore rOver "foo" = 4/5 := by
    have h1 : Scorer.tokenize "foo" = [['f','o','o']] := by decide
    have h2 : Scorer.tokenize rOver.title = [['f','o','o']] := by decide
    have h3 : Scorer.tokenize rOver.snippet = [] := by decide
    have h4 : containsSub (lowerStr "foo".toList) (lowerStr rOver.title.toList) = true := by decide
    unfold Scorer.relevanceScore
    rw [h1, h2, h3, h4]
    norm_num
  unfold Scorer.score
  rw [hrec, hdom, hrel]
  norm_num [cfg110]

theorem objGet_nil (k : String) : objGet [] k = none := rfl

theorem objGet_cons (k' : String) (v : MVal) (m : Meta) (k : String) :
    objGet ((k', v) :: m) k = if k' = k then some v else objGet m k := by
  by_cases h : k' = k
  · simp [objGet, List.find?_cons_of_pos, h]
  · simp [objGet, List.find?_cons_of_neg, h]

theorem objGet_append (m₁ m₂ : Meta) (k : String) :
    objGet (m₁ ++ m₂) k = (objGet m₁ k).elim (objGet m₂ k) some := by
  induction m₁ with
  | nil => simp [objGet_nil]
  | cons kv m ih =>
    rw [List.cons_append, objGet_cons kv.1 kv.2, objGet_cons kv.1 kv.2]
    by_cases h : kv.1 = k
    · simp [h]
    · simp only [if_neg h, ih]

theorem objGet_map_keys {f : String × MVal → String × MVal}
    (hf : ∀ kv, (f kv).1 = kv.1) (m : Meta) (k : String) :
    objGet (m.map f) k = (m.find? (fun kv => kv.1 = k)).map (fun kv => (f kv).2) := by
  induction m with
  | nil => rfl
  | cons kv m ih =>
    rw [List.map_cons]
    by_cases h : kv.1 = k
    · have hfk : (f kv).1 = k := by rw [hf kv, h]
      rw [show f kv = ((f kv).1, (f kv).2) from rfl]
      rw [objGet_cons, if_pos hfk, List.find?_cons_of_pos _ (by simpa using h)]
      rfl
    · have hfk : (f kv).1 ≠ k := by rw [hf kv]; exact h
      rw [show f kv = ((f kv).1, (f kv).2) from rfl]
      rw [objGet_cons, if_neg hfk, List.find?_cons_of_neg _ (by simpa using h)]
      exact ih

theorem objGet_filter {p : String × MVal → Bool} {m : Meta} {k : String}
    (h : ∀ kv ∈ m, kv.1 = k → p kv) : objGet (m.filter p) k = objGet m k := by
  induction m with
  | nil => rfl
  | cons kv m ih =>
    have ihm : objGet (m.filter p) k = objGet m k :=
      ih (fun kv2 h2 => h kv2 (List.mem_cons_of_mem _ h2))
    rcases hp : p kv with _ | _
    · have hkv : kv.1 ≠ k := by
        intro he
        have ht := h kv (List.mem_cons_self _ _) he
        rw [hp] at ht
        exact Bool.noConfusion ht
      rw [List.filter_cons_of_neg (by simp [hp]), ihm,
        show kv = (kv.1, kv.2) from rfl, objGet_cons, if_neg hkv]
    · rw [List.filter_cons_of_pos (by rw [hp]),
        show kv = (kv.1, kv.2) from rfl, objGet_cons, objGet_cons]
      by_cases hkv : kv.1 = k
      · rw [if_pos hkv, if_pos hkv]
      · rw [if_neg hkv, if_neg hkv, ihm]

theorem objGet_objSpread (a b : Meta) (k : String) :
    objGet (objSpread a b) k = (objGet b k).elim (objGet a k) some := by
  unfold objSpread
  have hf : ∀ kv : String × MVal,
      ((match objGet b kv.1 with
        | some v => (kv.1, v)
        | none => kv)).1 = kv.1 := by
    intro kv
    rcases h : objGet b kv.1 with _ | v <;> simp
  rw [objGet_append, objGet_map_keys hf]
  rcases ha : List.find? (fun kv => decide (kv.1 = k)) a with _ | kv0
  · have hget : objGet a k = none := by
      unfold objGet
      rw [ha]
      rfl
    have hfilter : objGet (b.filter (fun kv => (objGet a kv.1).isNone)) k = objGet b k := by
      apply objGet_filter
      intro kv2 _ hk
      rw [hk, hget]
      rfl
    rw [ha, hget]
    rcases hb : objGet b k with _ | v <;> simp [hfilter, hb]
  · have hk0 : kv0.1 = k := by simpa using List.find?_some ha
    have hget : objGet a k = some kv0.2 := by
      unfold objGet
      rw [ha]
      rfl
    rw [ha, hget]
    have hbk : objGet b k = objGet b kv0.1 := by rw [hk0]
    rw [hbk]
    rcases hb : objGet b kv0.1 with _ | v <;> simp [hb]

theorem objGet_objSet_self (m : Meta) (k : String) (v : MVal) :
    objGet (objSet m k v) k = some v := by
  unfold objSet
  rcases hf : List.find? (fun kv => decide (kv.1 = k)) m with _ | kv0
  · rw [if_neg (by rw [hf]; simp)]
    rw [objGet_append]
    have hget : objGet m k = none := by unfold objGet; rw [hf]; rfl
    rw [hget]
    simp [objGet_cons]
  · rw [if_pos (by rw [hf]; simp)]
    have hpres : ∀ kv : String × MVal,
        ((if kv.1 = k then (k, v) else kv) : String × MVal).1 = kv.1 := by
      intro kv
      by_cases h : kv.1 = k
      · rw [if_pos h, h]
      · rw [if_neg h]
    rw [objGet_map_keys hpres, hf]
    have hk0 : kv0.1 = k := by simpa using List.find?_some hf
    simp [hk0]

theorem objGet_objSet_ne (m : Meta) (k : String) (v : MVal) {k2 : String} (h : k2 ≠ k) :
    objGet (objSet m k v) k2 = objGet m k2 := by
  unfold objSet
  rcases hf : List.find? (fun kv => decide (kv.1 = k)) m with _ | kv0
  · rw [if_neg (by rw [hf]; simp)]
    rw [objGet_append]
    have hr : objGet [(k, v)] k2 = none := by
      rw [objGet_cons, if_neg (fun he => h he.symm), objGet_nil]
    rw [hr]
    rcases hm : objGet m k2 with _ | w <;> simp
  · rw [if_pos (by rw [hf]; simp)]
    have hpres : ∀ kv : String × MVal,
        ((if kv.1 = k then (k, v) else kv) : String × MVal).1 = kv.1 := by
      intro kv
      by_cases hh : kv.1 = k
      · rw [if_pos hh, hh]
      · rw [if_neg hh]
    rw [objGet_map_keys hpres]
    rcases hf2 : List.find? (fun kv => decide (kv.1 = k2)) m with _ | kv2
    · have hget : objGet m k2 = none := by unfold objGet; rw [hf2]; rfl
      rw [hget, hf2]
      rfl
    · have hk2 : kv2.1 = k2 := by simpa using List.find?_some hf2
      have hget : objGet m k2 = some kv2.2 := by unfold objGet; rw [hf2]; rfl
      rw [hget, hf2]
      have hne : ¬ kv2.1 = k := by rw [hk2]; exact h
      simp [hne]

theorem mergeDuplicate_meta (r1 r2 : SearchResult)
    (h1 : objGet (r1.metadata.getD []) "sources" = none)
    (h2 : objGet (r2.metadata.getD []) "sources" = none) :
    ∃ m : Meta, Deduplicator.mergeDuplicate r1 r2 = { r1 with metadata := some m } ∧
      objGet m "sources" = some (.strList [r1.source, r2.source]) ∧
      ∀ k, k ≠ "sources" →
        objGet m k = (objGet (r2.metadata.getD []) k).elim (objGet (r1.metadata.getD []) k) some := by
  have hsp : objGet (objSpread (r1.metadata.getD []) (r2.metadata.getD [])) "sources" = none := by
    rw [objGet_objSpread, h1, h2]
    rfl
  simp only [Deduplicator.mergeDuplicate]
  rw [hsp]
  have hset : objGet (objSet (objSpread (r1.metadata.getD []) (r2.metadata.getD []))
      "sources" (.strList [r1.source])) "sources" = some (.strList [r1.source]) :=
    objGet_objSet_self _ _ _
  rw [hset]
  refine ⟨_, rfl, ?_, ?_⟩
  · rw [objGet_objSet_self]
    rfl
  · intro k hk
    rw [objGet_objSet_ne _ _ _ hk, objGet_objSet_ne _ _ _ hk, objGet_objSpread]

/-- C1 (amended): on a duplicate key the first-seen result survives and the
duplicate metadata is spread over the survivor metadata, so keys new to the
survivor are added but for keys both objects carry the duplicate (last-seen)
value wins; a `sources` array is initialised with the survivor provider and
accumulates each duplicate provider (when neither object already carries a
`sources` key). -/
theorem C1_dedup_metadata_merge (cfg : DeduplicationConfig) (r1 r2 : SearchResult)
    (hkey : Deduplicator.generateKey cfg r1 = Deduplicator.generateKey cfg r2)
    (h1 : objGet (r1.metadata.getD []) "sources" = none)
    (h2 : objGet (r2.metadata.getD []) "sources" = none) :
    ∃ m : Meta,
      Deduplicator.deduplicate cfg [r1, r2] = [{ r1 with metadata := some m }] ∧
      objGet m "sources" = some (.strList [r1.source, r2.source]) ∧
      ∀ k, k ≠ "sources" →
        objGet m k = (objGet (r2.metadata.getD []) k).elim (objGet (r1.metadata.getD []) k) some := by
  have hk2 : Deduplicator.generateKey cfg r2 = Deduplicator.generateKey cfg r1 := hkey.symm
  have hstep : Deduplicator.deduplicate cfg [r1, r2] = [Deduplicator.mergeDuplicate r1 r2] := by
    simp [Deduplicator.deduplicate, Deduplicator.deduplicateAux, hk2]
  rw [hstep]
  obtain ⟨m, hm, hs, ho⟩ := mergeDuplicate_meta r1 r2 h1 h2
  exact ⟨m, by rw [hm], hs, ho⟩

theorem eraseMeta_mergeDuplicate (e d : SearchResult) :
    eraseMeta (Deduplicator.mergeDuplicate e d) = eraseMeta e := rfl

theorem keepFirstAux_congr (key : SearchResult → String) {s1 s2 : List String}
    (h : ∀ k, k ∈ s1 ↔ k ∈ s2) (l : List SearchResult) :
    keepFirstAux key s1 l = keepFirstAux key s2 l := by
  induction l generalizing s1 s2 with
  | nil => rfl
  | cons r rs ih =>
    simp only [keepFirstAux]
    by_cases hm : key r ∈ s1
    · rw [if_pos hm, if_pos ((h _).mp hm), ih h]
    · rw [if_neg hm, if_neg (fun hc => hm ((h _).mpr hc))]
      have h2 : ∀ k, k ∈ key r :: s1 ↔ k ∈ key r :: s2 := by
        intro k
        simp [h k]
      rw [ih h2]

theorem deduplicateAux_erase (cfg : DeduplicationConfig) (rs : List SearchResult) :
    ∀ seen : List (String × SearchResult),
      (Deduplicator.deduplicateAux cfg rs seen).map (fun kv => (kv.1, eraseMeta kv.2)) =
        seen.map (fun kv => (kv.1, eraseMeta kv.2)) ++
        (keepFirstAux (Deduplicator.generateKey cfg) (seen.map (fun kv => kv.1)) rs).map
          (fun r => (Deduplicator.generateKey cfg r, eraseMeta r)) := by
  induction rs with
  | nil =>
    intro seen
    simp [Deduplicator.deduplicateAux, keepFirstAux]
  | cons r rs ih =>
    intro seen
    rcases hfind : seen.find? (fun kv => kv.1 = Deduplicator.generateKey cfg r) with _ | kv
    · have hnot : Deduplicator.generateKey cfg r ∉ seen.map (fun kv => kv.1) := by
        intro hc
        obtain ⟨kv2, hkv2, hkk⟩ := List.mem_map.mp hc
        have := List.find?_eq_none.mp hfind kv2 hkv2
        simp [hkk] at this
      simp only [Deduplicator.deduplicateAux, hfind]
      rw [ih (seen ++ [(Deduplicator.generateKey cfg r, r)])]
      simp only [List.map_append, List.map_cons, List.map_nil, List.append_assoc]
      simp only [keepFirstAux, if_neg hnot]
      rw [List.map_cons]
      have hiff : ∀ k : String,
          k ∈ seen.map (fun kv => kv.1) ++ [Deduplicator.generateKey cfg r] ↔
          k ∈ Deduplicator.generateKey cfg r :: seen.map (fun kv => kv.1) := by
        intro k
        simp [or_comm]
      have hcg := keepFirstAux_congr (Deduplicator.generateKey cfg) hiff rs
      rw [hcg]
      simp
    · have hmem : Deduplicator.generateKey cfg r ∈ seen.map (fun kv => kv.1) := by
        have hk : kv.1 = Deduplicator.generateKey cfg r := by
          simpa using List.find?_some hfind
        exact List.mem_map.mpr ⟨kv, List.mem_of_find?_eq_some hfind, hk⟩
      simp only [Deduplicator.deduplicateAux, hfind]
      rw [ih _]
      have hupd1 : (seen.map (fun kv =>
          if kv.1 = Deduplicator.generateKey cfg r then
            (Deduplicator.generateKey cfg r, Deduplicator.mergeDuplicate kv.2 r)
          else kv)).map (fun kv => (kv.1, eraseMeta kv.2)) =
          seen.map (fun kv => (kv.1, eraseMeta kv.2)) := by
        rw [List.map_map]
        apply List.map_congr_left
        intro kv2 _
        by_cases hk : kv2.1 = Deduplicator.generateKey cfg r
        · simp [Function.comp, hk, eraseMeta_mergeDuplicate]
        · simp [Function.comp, hk]
      have hupd2 : (seen.map (fun kv =>
          if kv.1 = Deduplicator.generateKey cfg r then
            (Deduplicator.generateKey cfg r, Deduplicator.mergeDuplicate kv.2 r)
          else kv)).map (fun kv => kv.1) =
          seen.map (fun kv => kv.1) := by
        rw [List.map_map]
        apply List.map_congr_left
        intro kv2 _
        by_cases hk : kv2.1 = Deduplicator.generateKey cfg r
        · simp [Function.comp, hk]
        · simp [Function.comp, hk]
      rw [hupd1, hupd2]
      simp only [keepFirstAux, if_pos hmem]

theorem keepFirstAux_sublist (key : SearchResult → String) (seen : List String)
    (l : List SearchResult) : List.Sublist (keepFirstAux key seen l) l := by
  induction l generalizing seen with
  | nil => exact List.Sublist.refl []
  | cons r rs ih =>
    simp only [keepFirstAux]
    by_cases hm : key r ∈ seen
    · rw [if_pos hm]
      exact List.Sublist.cons r (ih seen)
    · rw [if_neg hm]
      exact List.Sublist.cons₂ r (ih (key r :: seen))

theorem deduplicateAux_fresh (cfg : DeduplicationConfig) (rs : List SearchResult) :
    ∀ seen : List (String × SearchResult),
      (∀ r ∈ rs, Deduplicator.generateKey cfg r ∉ seen.map (fun kv => kv.1)) →
      (rs.map (Deduplicator.generateKey cfg)).Nodup →
      Deduplicator.deduplicateAux cfg rs seen =
        seen ++ rs.map (fun r => (Deduplicator.generateKey cfg r, r)) := by
  induction rs with
  | nil =>
    intro seen _ _
    simp [Deduplicator.deduplicateAux]
  | cons r rs ih =>
    intro seen hfresh hnd
    simp only [Deduplicator.deduplicateAux]
    have hfind : seen.find? (fun kv => kv.1 = Deduplicator.generateKey cfg r) = none := by
      apply List.find?_eq_none.mpr
      intro kv hkv
      simp only [decide_eq_true_eq]
      intro hc
      exact hfresh r (List.mem_cons_self _ _) (List.mem_map.mpr ⟨kv, hkv, hc⟩)
    rw [hfind]
    rw [ih (seen ++ [(Deduplicator.generateKey cfg r, r)]) ?_ (List.nodup_cons.mp (by simpa using hnd)).2]
    · simp
    · intro r2 hr2
      simp only [List.map_append, List.map_cons, List.map_nil, List.mem_append, List.mem_cons,
        List.not_mem_nil, or_false, not_or]
      refine ⟨fun hc => hfresh r2 (List.mem_cons_of_mem _ hr2) hc, fun hc => ?_⟩
      have hhead : Deduplicator.generateKey cfg r ∉ rs.map (Deduplicator.generateKey cfg) :=
        (List.nodup_cons.mp (by simpa using hnd)).1
      exact hhead (by rw [← hc]; exact List.mem_map_of_mem _ hr2)

/-- C9: `deduplicate` returns exactly the first occurrence of each
deduplication key, in input order (the output equals the first-occurrence
subsequence of the input up to the in-place metadata merges the code
performs on survivors), the output is never longer than the input, every
output element coincides with an input element on all fields but metadata,
and when all keys are distinct the output is the input list itself. -/
theorem C9_dedup_first_occurrence (cfg : DeduplicationConfig) (rs : List SearchResult) :
    (Deduplicator.deduplicate cfg rs).map eraseMeta =
      (keepFirstByKey (Deduplicator.generateKey cfg) rs).map eraseMeta ∧
    List.Sublist (keepFirstByKey (Deduplicator.generateKey cfg) rs) rs ∧
    (Deduplicator.deduplicate cfg rs).length ≤ rs.length ∧
    (∀ o ∈ Deduplicator.deduplicate cfg rs, ∃ r ∈ rs, eraseMeta o = eraseMeta r) ∧
    ((rs.map (Deduplicator.generateKey cfg)).Nodup → Deduplicator.deduplicate cfg rs = rs) := by
  have hmain := deduplicateAux_erase cfg rs []
  simp only [List.map_nil, List.nil_append] at hmain
  have hsub : List.Sublist (keepFirstByKey (Deduplicator.generateKey cfg) rs) rs :=
    keepFirstAux_sublist _ [] rs
  have h1 : (Deduplicator.deduplicate cfg rs).map eraseMeta =
      (keepFirstByKey (Deduplicator.generateKey cfg) rs).map eraseMeta := by
    unfold Deduplicator.deduplicate keepFirstByKey
    have lhs : (((Deduplicator.deduplicateAux cfg rs []).map (fun kv => kv.2)).map eraseMeta) =
        ((Deduplicator.deduplicateAux cfg rs []).map (fun kv => (kv.1, eraseMeta kv.2))).map
          (fun kv => kv.2) := by
      rw [List.map_map, List.map_map]
      rfl
    rw [lhs, hmain, List.map_map]
    rfl
  refine ⟨h1, hsub, ?_, ?_, ?_⟩
  · have hlen : (Deduplicator.deduplicate cfg rs).length =
        (keepFirstByKey (Deduplicator.generateKey cfg) rs).length := by
      have := congrArg List.length h1
      simpa using this
    rw [hlen]
    exact hsub.length_le
  · intro o ho
    have : eraseMeta o ∈ (Deduplicator.deduplicate cfg rs).map eraseMeta :=
      List.mem_map_of_mem _ ho
    rw [h1] at this
    obtain ⟨r, hr, he⟩ := List.mem_map.mp this
    exact ⟨r, hsub.subset hr, he.symm⟩
  · intro hnd
    have hfresh := deduplicateAux_fresh cfg rs [] (by simp) hnd
    unfold Deduplicator.deduplicate
    rw [hfresh]
    rw [List.nil_append, List.map_map]
    exact List.map_congr_left (fun r _ => rfl) |>.trans (List.map_id rs)

theorem retryFrom_const_error {att : ℕ → Except ThrownError (List SearchResult)}
    {e : ThrownError} (h : ∀ i, att i = .error e) :
    ∀ n i, Fetcher.retryFrom att n i = .error e := by
  intro n
  induction n with
  | zero => intro i; exact h i
  | succ m ih =>
    intro i
    simp only [Fetcher.retryFrom, h i]
    exact ih (i + 1)

theorem retryFrom_const_ok (rs : List SearchResult) :
    ∀ n i, Fetcher.retryFrom (fun _ => .ok rs) n i = .ok rs := by
  intro n i
  cases n <;> simp [Fetcher.retryFrom]

/-- C4: one provider whose `search` fails on every attempt (retries
exhausted) next to one returning a non-empty list, in either order, yields
exactly the succeeding provider results (non-empty), a one-element `errors`
array tagged with the failing provider name, and a `providers` list holding
only the succeeding provider; the failure never aborts the fetch. -/
theorem C4_fetcher_isolation (retries : ℕ) (nameF nameO : String)
    (attF : ℕ → Except ThrownError (List SearchResult)) (e : ThrownError)
    (rsOk : List SearchResult) (hfail : ∀ i, attF i = .error e) (hne : rsOk ≠ []) :
    Fetcher.fetchAll retries [⟨nameF, attF⟩, ⟨nameO, fun _ => .ok rsOk⟩] =
      ⟨rsOk, [⟨nameF, e.message, e.statusCode⟩], [nameO]⟩ ∧
    Fetcher.fetchAll retries [⟨nameO, fun _ => .ok rsOk⟩, ⟨nameF, attF⟩] =
      ⟨rsOk, [⟨nameF, e.message, e.statusCode⟩], [nameO]⟩ ∧
    (Fetcher.fetchAll retries [⟨nameF, attF⟩, ⟨nameO, fun _ => .ok rsOk⟩]).results ≠ [] := by
  have hff : Fetcher.fetchFromProvider retries ⟨nameF, attF⟩ = .error e :=
    retryFrom_const_error hfail retries 0
  have hfo : Fetcher.fetchFromProvider retries ⟨nameO, fun _ => .ok rsOk⟩ = .ok rsOk :=
    retryFrom_const_ok rsOk retries 0
  refine ⟨?_, ?_, ?_⟩
  · simp [Fetcher.fetchAll, hff, hfo]
  · simp [Fetcher.fetchAll, hff, hfo]
  · simp [Fetcher.fetchAll, hff, hfo, hne]

/-- C6: every categorized result has a non-empty `categories` list: the
matching category names in category-definition order when any category
matches, and the one-element sentinel `["General"]` otherwise. -/
theorem C6_categorize_general (cats : List Category) (results : List ScoredResult) :
    ∀ x ∈ Categorizer.categorize cats results,
      x.categories ≠ [] ∧
      (Categorizer.matchedNames cats x.base = [] → x.categories = ["General"]) ∧
      (Categorizer.matchedNames cats x.base ≠ [] →
        x.categories = Categorizer.matchedNames cats x.base) := by
  intro x hx
  obtain ⟨r, hr, rfl⟩ := List.mem_map.mp hx
  simp only [Categorizer.matchCategories]
  by_cases h : Categorizer.matchedNames cats r = []
  · refine ⟨?_, fun _ => ?_, fun hc => absurd h hc⟩
    · simp [h]
    · simp [h]
  · have hie : (Categorizer.matchedNames cats r).isEmpty = false := by
      rcases hm : Categorizer.matchedNames cats r with _ | ⟨a, l⟩
      · exact absurd hm h
      · rfl
    refine ⟨?_, fun hc => absurd hc h, fun _ => ?_⟩
    · simp [hie, h]
    · simp [hie]

theorem rangePush_bounds (s e m : ℤ) :
    ∀ x ∈ InteractiveSearch.rangePush s e m, 1 ≤ x ∧ x ≤ m := by
  intro x hx
  unfold InteractiveSearch.rangePush at hx
  by_cases h : s > min e m
  · rw [if_pos h] at hx
    exact absurd hx (List.not_mem_nil x)
  · rw [if_neg h] at hx
    obtain ⟨hx1, hx2⟩ := List.mem_filter.mp hx
    obtain ⟨k, hk, hxk⟩ := List.mem_map.mp hx1
    refine ⟨by simpa using hx2, ?_⟩
    rw [List.mem_range'_1] at hk
    have hs : s ≤ min e m := le_of_not_lt h
    have hk2 : (k : ℤ) ≤ ((min e m - s).toNat : ℤ) := by
      exact_mod_cast Nat.lt_succ_iff.mp (by simpa using hk.2)
    have htn : ((min e m - s).toNat : ℤ) = min e m - s := Int.toNat_of_nonneg (by omega)
    have hxle : x ≤ min e m := by omega
    exact le_trans hxle (min_le_right e m)

theorem parseSelectionPart_bounds (maxv : ℤ) (part : List Char) :
    ∀ x ∈ InteractiveSearch.parseSelectionPart maxv part, 1 ≤ x ∧ x ≤ maxv := by
  intro x hx
  unfold InteractiveSearch.parseSelectionPart at hx
  by_cases hc : part.contains '-'
  · rw [if_pos hc] at hx
    dsimp only at hx
    split at hx
    · rename_i s e h1 h2
      split at hx
      · exact rangePush_bounds s e maxv x hx
      · exact absurd hx (List.not_mem_nil x)
    · exact absurd hx (List.not_mem_nil x)
  · rw [if_neg hc] at hx
    split at hx
    · rename_i n h1
      split at hx
      · rename_i hb
        rcases List.mem_singleton.mp hx with rfl
        exact hb
      · exact absurd hx (List.not_mem_nil x)
    · exact absurd hx (List.not_mem_nil x)

/-- C7: `parseSelection "1,3-5,7"` with max 10 is `[1, 3, 4, 5, 7]`; for
every input string and max the function is total (never throws), drops
out-of-range numbers, ignores malformed tokens, and returns a duplicate-free
ascending list whose elements all lie in `[1, max]`. -/
theorem C7_parseSelection_spec :
    InteractiveSearch.parseSelection "1,3-5,7" 10 = [1, 3, 4, 5, 7] ∧
    ∀ (s : String) (maxv : ℤ),
      (InteractiveSearch.parseSelection s maxv).Pairwise (fun a b => a < b) ∧
      ∀ x ∈ InteractiveSearch.parseSelection s maxv, 1 ≤ x ∧ x ≤ maxv := by
  constructor
  · decide
  · intro s maxv
    constructor
    · have hnd : ((dedupFirst (((splitOnChar ',' s.toList).map trimChars).flatMap
          (InteractiveSearch.parseSelectionPart maxv)))).Nodup := nodup_dedupFirst _
      have hsorted := pairwise_sortBy
        (fun a b : ℤ => decide (a ≤ b))
        (fun a b c h1 h2 => by
          simp only [decide_eq_true_eq] at *
          omega)
        (fun a b => by
          simp only [decide_eq_true_eq]
          omega)
        (dedupFirst (((splitOnChar ',' s.toList).map trimChars).flatMap
          (InteractiveSearch.parseSelectionPart maxv)))
      have hnds : (InteractiveSearch.parseSelection s maxv).Nodup := by
        unfold InteractiveSearch.parseSelection
        exact (sortBy_perm _ _).symm.nodup hnd
      have hple : (InteractiveSearch.parseSelection s maxv).Pairwise (fun a b => a ≤ b) := by
        unfold InteractiveSearch.parseSelection
        exact hsorted.imp (fun h => by simpa using h)
      exact List.Sorted.lt_of_le hple hnds
    · intro x hx
      unfold InteractiveSearch.parseSelection at hx
      rw [mem_sortBy, mem_dedupFirst] at hx
      obtain ⟨part, hpart, hxp⟩ := List.mem_flatMap.mp hx
      exact parseSelectionPart_bounds maxv part x hxp


/-- C1 witness: the amended statement at the concrete duplicate pair. -/
theorem C1_dedup_metadata_merge_witness :
    ∃ m : Meta,
      Deduplicator.deduplicate dedupCfg [dupA, dupB] = [{ dupA with metadata := some m }] ∧
      objGet m "sources" = some (.strList [dupA.source, dupB.source]) ∧
      ∀ k, k ≠ "sources" →
        objGet m k = (objGet (dupB.metadata.getD []) k).elim (objGet (dupA.metadata.getD []) k) some :=
  C1_dedup_metadata_merge dedupCfg dupA dupB (by decide) (by decide) (by decide)

/-- C1 counterexample: the survivor entered with `a ↦ 1` (second conjunct),
but after deduplication the shared key `a` carries the duplicate value 2 —
the spread `{...existing.metadata, ...result.metadata}` lets the duplicate
win, while the claim requires the survivor (first-seen) value 1 to be
kept. -/
theorem C1_dedup_metadata_merge_counterexample :
    Deduplicator.deduplicate dedupCfg [dupA, dupB] =
      [{ dupA with metadata := some mergedMetaAB }] ∧
    objGet (dupA.metadata.getD []) "a" = some (.num 1) := by
  constructor <;> decide

/-- C9 witness: a duplicate-free concrete list is returned unchanged. -/
theorem C9_dedup_first_occurrence_witness :
    (Deduplicator.deduplicate dedupCfg [dupA, sampleOk]).map eraseMeta =
      (keepFirstByKey (Deduplicator.generateKey dedupCfg) [dupA, sampleOk]).map eraseMeta ∧
    Deduplicator.deduplicate dedupCfg [dupA, sampleOk] = [dupA, sampleOk] :=
  ⟨(C9_dedup_first_occurrence dedupCfg [dupA, sampleOk]).1,
   (C9_dedup_first_occurrence dedupCfg [dupA, sampleOk]).2.2.2.2 (by decide)⟩

/-- C4 witness: an always-HTTP-500 provider next to a succeeding one. -/
theorem C4_fetcher_isolation_witness :
    Fetcher.fetchAll 2 [⟨"brave", fun _ => .error err500⟩, ⟨"duckduckgo", fun _ => .ok [sampleOk]⟩] =
      ⟨[sampleOk], [⟨"brave", err500.message, err500.statusCode⟩], ["duckduckgo"]⟩ ∧
    (Fetcher.fetchAll 2 [⟨"brave", fun _ => .error err500⟩,
      ⟨"duckduckgo", fun _ => .ok [sampleOk]⟩]).results ≠ [] := by
  have h := C4_fetcher_isolation 2 "brave" "duckduckgo" (fun _ => .error err500) err500
    [sampleOk] (fun _ => rfl) (by simp)
  exact ⟨h.1, h.2.2⟩

/-- C6 witness: a GitHub result is categorized `Repository`, non-empty. -/
theorem C6_categorize_general_witness :
    ((⟨⟨sampleOk, 0⟩, ["Repository"]⟩ : CategorizedResult).categories ≠ [] ∧
      (Categorizer.matchedNames Categorizer.defaultCategories ⟨sampleOk, 0⟩ = [] →
        (⟨⟨sampleOk, 0⟩, ["Repository"]⟩ : CategorizedResult).categories = ["General"]) ∧
      (Categorizer.matchedNames Categorizer.defaultCategories ⟨sampleOk, 0⟩ ≠ [] →
        (⟨⟨sampleOk, 0⟩, ["Repository"]⟩ : CategorizedResult).categories =
          Categorizer.matchedNames Categorizer.defaultCategories ⟨sampleOk, 0⟩)) :=
  C6_categorize_general Categorizer.defaultCategories [⟨sampleOk, 0⟩]
    ⟨⟨sampleOk, 0⟩, ["Repository"]⟩ (by decide)

/-- C7 witness: the concrete example plus the invariants at a mixed input
containing a malformed token and an out-of-range number. -/
theorem C7_parseSelection_spec_witness :
    InteractiveSearch.parseSelection "1,3-5,7" 10 = [1, 3, 4, 5, 7] ∧
    (1 ≤ (5 : ℤ) ∧ (5 : ℤ) ≤ 6) :=
  ⟨C7_parseSelection_spec.1, (C7_parseSelection_spec.2 "2,4-5,xyz,99" 6).2 5 (by decide)⟩

/-- C8: `buildRefinedQueries(['react','node'], 'expand')` on base query
`typescript` yields exactly the three queries in construction order. -/
theorem C8_buildRefinedQueries_expand :
    QueryRefiner.buildRefinedQueries "typescript" ["react", "node"] .expand =
      ["typescript react", "typescript node", "typescript react node"] := by
  decide

/-- C10: `Scorer.score` spreads the input result unchanged — every field of
the scored result equals the input field; only `score` is added. -/
theorem C10_score_frame (cfg : ScoringConfig) (now : ℚ) (r : SearchResult) (q : String) :
    (Scorer.score cfg now r q).base.url = r.url ∧
    (Scorer.score cfg now r q).base.title = r.title ∧
    (Scorer.score cfg now r q).base.snippet = r.snippet ∧
    (Scorer.score cfg now r q).base.source = r.source ∧
    (Scorer.score cfg now r q).base.timestamp = r.timestamp ∧
    (Scorer.score cfg now r q).base.metadata = r.metadata :=
  ⟨rfl, rfl, rfl, rfl, rfl, rfl⟩

theorem toList_mk (l : List Char) : (String.mk l).toList = l := rfl

theorem takeWhile_all {p : Char → Bool} {l : List Char} (h : ∀ c ∈ l, p c) :
    l.takeWhile p = l := List.takeWhile_eq_self_iff.mpr h

theorem takeWhile_append_stop {p : Char → Bool} {l : List Char} (hl : ∀ c ∈ l, p c)
    {x : Char} (hx : p x = false) (r : List Char) :
    (l ++ x :: r).takeWhile p = l := by
  rw [List.takeWhile_append, takeWhile_all hl, if_pos rfl, List.takeWhile_cons_of_neg (by simp [hx]),
    List.append_nil]

theorem lowerStr_invariant {l : List Char} (h : ∀ c ∈ l, jsCharLower c = c) :
    lowerStr l = l :=
  (List.map_congr_left h).trans (List.map_id l)

theorem mem_renderQSeg {c : Char} {kv : List Char × List Char} (h : c ∈ renderQSeg kv) :
    c ∈ kv.1 ∨ c = '=' ∨ c ∈ kv.2 := by
  rcases List.mem_append.mp h with h1 | h1
  · exact Or.inl h1
  · rcases List.mem_cons.mp h1 with h2 | h2
    · exact Or.inr (Or.inl h2)
    · exact Or.inr (Or.inr h2)

theorem mem_renderQuery {c : Char} : ∀ {ps : List (List Char × List Char)},
    c ∈ renderQuery ps → c = '=' ∨ c = '&' ∨ ∃ kv ∈ ps, c ∈ kv.1 ∨ c ∈ kv.2 := by
  intro ps
  induction ps with
  | nil => intro h; exact absurd h (List.not_mem_nil c)
  | cons kv rest ih =>
    intro h
    rcases rest with _ | ⟨kv2, rest2⟩
    · rcases mem_renderQSeg h with h1 | h1 | h1
      · exact Or.inr (Or.inr ⟨kv, List.mem_singleton_self kv, Or.inl h1⟩)
      · exact Or.inl h1
      · exact Or.inr (Or.inr ⟨kv, List.mem_singleton_self kv, Or.inr h1⟩)
    · have hshape : renderQuery (kv :: kv2 :: rest2) =
          renderQSeg kv ++ '&' :: renderQuery (kv2 :: rest2) := rfl
      rw [hshape] at h
      rcases List.mem_append.mp h with h1 | h1
      · rcases mem_renderQSeg h1 with h2 | h2 | h2
        · exact Or.inr (Or.inr ⟨kv, List.mem_cons_self _ _, Or.inl h2⟩)
        · exact Or.inl h2
        · exact Or.inr (Or.inr ⟨kv, List.mem_cons_self _ _, Or.inr h2⟩)
      · rcases List.mem_cons.mp h1 with h2 | h2
        · exact Or.inr (Or.inl h2)
        · rcases ih h2 with h3 | h3 | ⟨kv3, hkv3, h3⟩
          · exact Or.inl h3
          · exact Or.inr (Or.inl h3)
          · exact Or.inr (Or.inr ⟨kv3, List.mem_cons_of_mem _ hkv3, h3⟩)

theorem hash_not_mem_renderQuery {ps : List (List Char × List Char)}
    (h : CleanPairs ps) : '#' ∉ renderQuery ps := by
  intro hc
  rcases mem_renderQuery hc with h1 | h1 | ⟨kv, hkv, h1 | h1⟩
  · exact absurd h1 (by decide)
  · exact absurd h1 (by decide)
  · exact (h kv hkv).1.2.2 h1
  · exact (h kv hkv).2.2 h1

theorem amp_not_mem_renderQSeg {kv : List Char × List Char}
    (h1 : '&' ∉ kv.1) (h2 : '&' ∉ kv.2) : '&' ∉ renderQSeg kv := by
  intro hc
  simp only [renderQSeg, List.mem_append, List.mem_cons] at hc
  rcases hc with hc | hc | hc
  · exact h1 hc
  · exact absurd hc (by decide)
  · exact h2 hc

theorem parseQSeg_render {k v : List Char} (h : '=' ∉ k) :
    parseQSeg (k ++ '=' :: v) = (k, v) := by
  simp only [parseQSeg]
  have ht : (k ++ '=' :: v).takeWhile (fun c => c ≠ '=') = k := by
    apply takeWhile_append_stop
    · intro c hc
      simp only [ne_eq, decide_eq_true_eq]
      exact fun he => h (he ▸ hc)
    · simp
  rw [ht, List.drop_left, List.drop_one, List.tail_cons]

theorem parseQuery_renderQuery : ∀ {ps : List (List Char × List Char)},
    CleanPairs ps → parseQuery (renderQuery ps) = ps := by
  intro ps
  induction ps with
  | nil => intro _; rfl
  | cons kv rest ih =>
    intro h
    have hkv := h kv (List.mem_cons_self _ _)
    have hseg : renderQSeg kv ≠ [] := by
      simp only [renderQSeg]
      intro hc
      exact absurd (List.append_eq_nil.mp hc).2 (by simp)
    rcases rest with _ | ⟨kv2, rest2⟩
    · show parseQuery (renderQSeg kv) = [kv]
      unfold parseQuery
      rw [splitOnChar_of_not_mem (amp_not_mem_renderQSeg hkv.1.1 hkv.2.1)]
      simp only [List.filterMap]
      rw [if_neg (by simpa using hseg)]
      show [parseQSeg (kv.1 ++ '=' :: kv.2)] = [kv]
      rw [parseQSeg_render hkv.1.2.1]
    · have hrest : CleanPairs (kv2 :: rest2) :=
        fun kv3 hkv3 => h kv3 (List.mem_cons_of_mem _ hkv3)
      show parseQuery (renderQSeg kv ++ '&' :: renderQuery (kv2 :: rest2)) = kv :: kv2 :: rest2
      unfold parseQuery
      rw [splitOnChar_append (amp_not_mem_renderQSeg hkv.1.1 hkv.2.1)]
      simp only [List.filterMap]
      rw [if_neg (by simpa using hseg)]
      have hih := ih hrest
      unfold parseQuery at hih
      rw [show renderQSeg kv = kv.1 ++ '=' :: kv.2 from rfl, parseQSeg_render hkv.1.2.1, hih]

theorem parseUrl_render (u : UrlParts) (hc : CleanUrl u) {qs : List Char}
    (hq : ∀ c ∈ qs, c ≠ '#') :
    parseUrl (u.scheme ++ ':' :: '/' :: '/' :: u.host ++ u.path ++
      (if qs.isEmpty then [] else '?' :: qs)) = some ⟨u.scheme, u.host, u.path, qs⟩ := by
  obtain ⟨hs1, hs2, hs3, hh1, hh2, hp1, hp2, hp3⟩ := hc
  obtain ⟨p0, ptail, hpeq⟩ : ∃ p0 ptail, u.path = p0 :: ptail := by
    rcases hpth : u.path with _ | ⟨p0, pt⟩
    · exact absurd hpth hp1
    · exact ⟨p0, pt, rfl⟩
  have hp0 : p0 = '/' := by
    have := hp2
    rw [hpeq] at this
    simpa using this
  set qpart := (if qs.isEmpty then ([] : List Char) else '?' :: qs) with hqpart
  have hcanon : u.scheme ++ ':' :: '/' :: '/' :: u.host ++ u.path ++ qpart =
      u.scheme ++ (':' :: '/' :: '/' :: (u.host ++ (u.path ++ qpart))) := by
    simp [List.append_assoc]
  rw [hcanon]
  have hsch : (u.scheme ++ (':' :: '/' :: '/' :: (u.host ++ (u.path ++ qpart)))).takeWhile
      isSchemeChar = u.scheme :=
    takeWhile_append_stop (fun c hc2 => (hs3 c hc2).1) (by decide) _
  simp only [parseUrl, hsch]
  rw [if_neg ?hcond]
  case hcond =>
    simp only [not_or, not_not]
    constructor
    · rcases hsc : u.scheme with _ | _
      · exact absurd hsc hs1
      · simp [List.isEmpty]
    · simpa using hs2
  rw [List.drop_left]
  have hauth : (u.host ++ (u.path ++ qpart)).takeWhile (fun c => ¬ isAuthorityEnd c) = u.host := by
    rw [hpeq, hp0, List.cons_append]
    exact takeWhile_append_stop
      (fun c hc2 => by simpa using (hh2 c hc2).1) (by decide) _
  have hsplit : splitOnChar '@' u.host = [u.host] :=
    splitOnChar_of_not_mem (fun hcm => (hh2 '@' hcm).2.1 rfl)
  have hhostTW : u.host.takeWhile (fun c => c ≠ ':') = u.host :=
    takeWhile_all (fun c hc2 => by simpa using (hh2 c hc2).2.2.1)
  have hpath : (u.path ++ qpart).takeWhile (fun c => ¬ isPathEnd c) = u.path := by
    rcases hqe : qs with _ | ⟨q0, qrest⟩
    · have hqp : qpart = [] := by rw [hqpart, hqe]; rfl
      rw [hqp, List.append_nil]
      exact takeWhile_all (fun c hc2 => by simpa using hp3 c hc2)
    · have hqp : qpart = '?' :: qs := by rw [hqpart, hqe]; rfl
      rw [hqp, hqe]
      exact takeWhile_append_stop (fun c hc2 => by simpa using hp3 c hc2) (by decide) _
  have hlowS : lowerStr u.scheme = u.scheme := lowerStr_invariant (fun c hc2 => (hs3 c hc2).2)
  have hlowH : lowerStr u.host = u.host := lowerStr_invariant (fun c hc2 => (hh2 c hc2).2.2.2)
  have hhne : u.host.isEmpty = false := by
    rcases hhs : u.host with _ | _
    · exact absurd hhs hh1
    · rfl
  have hpne : u.path.isEmpty = false := by
    rw [hpeq]
    rfl
  split
  · rename_i r2 heq
    have hr2 : r2 = u.host ++ (u.path ++ qpart) := by
      injection heq with h1 heq1
      injection heq1 with h2 heq2
      injection heq2 with h3 heq3
      exact heq3.symm
    subst hr2
    rw [hauth, hsplit]
    rw [show ([u.host]).getLastD u.host = u.host from rfl]
    rw [hhostTW, if_neg (by rw [hhne]; exact Bool.false_ne_true), List.drop_left,
      hpath, List.drop_left, hlowS, hlowH]
    rw [if_neg (by rw [hpne]; exact Bool.false_ne_true)]
    rcases hqe : qs with _ | ⟨q0, qrest⟩
    · have hqp : qpart = [] := by rw [hqpart, hqe]; rfl
      rw [hqp]
    · have hqp : qpart = '?' :: qs := by rw [hqpart, hqe]; rfl
      have hqTW : qs.takeWhile (fun c => c ≠ '#') = qs :=
        takeWhile_all (fun c hc2 => by simpa using hq c hc2)
      rw [hqe] at hqTW
      rw [hqp, hqe]
      simp only [hqTW]
  · rename_i hne
    exact absurd rfl (hne (u.host ++ (u.path ++ qpart)))

theorem parseUrl_none_of_no_colon {l : List Char} (h : ':' ∉ l) : parseUrl l = none := by
  simp only [parseUrl]
  by_cases hif : (l.takeWhile isSchemeChar).isEmpty = true ∨
      ¬ ((l.takeWhile isSchemeChar).headD ' ').isAlpha = true
  · rw [if_pos hif]
  · rw [if_neg hif]
    split
    · rename_i r2 heq
      exfalso
      apply h
      apply List.mem_of_mem_drop (n := (l.takeWhile isSchemeChar).length)
      rw [heq]
      exact List.mem_cons_self _ _
    · rfl

theorem jsCharLower_colon {c : Char} (h : jsCharLower c = ':') : c = ':' := by
  by_cases hr : 65 ≤ c.toNat ∧ c.toNat ≤ 90
  · exfalso
    have ht := jsCharLower_toNat_lower c hr
    rw [h] at ht
    have : (':').toNat = 58 := by decide
    omega
  · rw [jsCharLower, if_neg hr] at h
    exact h

theorem colon_not_mem_lowerStr {l : List Char} (h : ':' ∉ l) : ':' ∉ lowerStr l := by
  intro hc
  obtain ⟨c, hcl, hce⟩ := List.mem_map.mp hc
  exact h (jsCharLower_colon hce ▸ hcl)

theorem normalizeUrl_fallback_idem {s : String} (h : ':' ∉ s.toList) :
    Deduplicator.normalizeUrl (Deduplicator.normalizeUrl s) = Deduplicator.normalizeUrl s := by
  unfold Deduplicator.normalizeUrl
  simp only [normalizeUrlList, parseUrl_none_of_no_colon h, toList_mk,
    parseUrl_none_of_no_colon (colon_not_mem_lowerStr h), lowerStr_idem]

theorem mem_hostStripped {c : Char} {h : List Char} (hc : c ∈ hostStripped h) : c ∈ h := by
  unfold hostStripped at hc
  by_cases hp : wwwDot.isPrefixOf h
  · rw [if_pos hp] at hc
    exact List.mem_of_mem_drop hc
  · rw [if_neg hp] at hc
    exact hc

theorem mem_pathStripped {c : Char} {p : List Char} (hc : c ∈ pathStripped p) : c ∈ p := by
  unfold pathStripped at hc
  split at hc
  · exact List.mem_of_mem_dropLast hc
  · exact hc

theorem pathStripped_ne_nil {p : List Char} (hp : p ≠ []) : pathStripped p ≠ [] := by
  unfold pathStripped
  split
  · rename_i hcond
    have hlen : 0 < p.dropLast.length := by
      rw [List.length_dropLast]
      omega
    exact List.ne_nil_of_length_pos hlen
  · exact hp

theorem dropLast_headD {l : List Char} (h : 1 < l.length) (d : Char) :
    l.dropLast.headD d = l.headD d := by
  rcases l with _ | ⟨a, _ | ⟨b, t⟩⟩
  · simp at h
  · simp at h
  · rfl

theorem pathStripped_headD {p : List Char} (d : Char) :
    (pathStripped p).headD d = p.headD d := by
  unfold pathStripped
  split
  · rename_i hcond
    exact dropLast_headD hcond.1 d
  · rfl

theorem keyLe_trans (a b c : List Char × List Char)
    (h1 : keyLe a b) (h2 : keyLe b c) : keyLe a c :=
  jsStrLe_trans a.1 b.1 c.1 h1 h2

theorem keyLe_total (a b : List Char × List Char) : keyLe a b ∨ keyLe b a :=
  jsStrLe_total a.1 b.1

theorem normalizedParams_render {q : List Char} (hq : CleanPairs (normalizedParams q)) :
    normalizedParams (renderQuery (normalizedParams q)) = normalizedParams q := by
  have hparse := parseQuery_renderQuery hq
  have hfilter : (normalizedParams q).filter (fun kv => ¬ trackingParamKeys.contains kv.1) =
      normalizedParams q := by
    apply List.filter_eq_self.mpr
    intro kv hkv
    rw [normalizedParams, mem_sortBy, List.mem_filter] at hkv
    exact hkv.2
  have hsorted : List.Pairwise (fun a b => keyLe a b) (normalizedParams q) :=
    pairwise_sortBy keyLe keyLe_trans keyLe_total _
  calc normalizedParams (renderQuery (normalizedParams q))
      = sortBy keyLe ((parseQuery (renderQuery (normalizedParams q))).filter
          (fun kv => ¬ trackingParamKeys.contains kv.1)) := rfl
    _ = sortBy keyLe (normalizedParams q) := by rw [hparse, hfilter]
    _ = normalizedParams q := sortBy_of_chain hsorted.chain'

theorem normalizeUrl_parsed_idem (s : String) (u : UrlParts) (hparse : parseUrl s.toList = some u)
    (hclean : CleanUrl u) (hq : CleanPairs (normalizedParams u.query))
    (hne : hostStripped (lowerStr u.host) ≠ [])
    (hww : ¬ wwwDot.isPrefixOf (hostStripped (lowerStr u.host)))
    (hsl : ¬ (1 < (pathStripped u.path).length ∧ (pathStripped u.path).getLastD ' ' = '/')) :
    Deduplicator.normalizeUrl (Deduplicator.normalizeUrl s) = Deduplicator.normalizeUrl s := by
  obtain ⟨hs1, hs2, hs3, hh1, hh2, hp1, hp2, hp3⟩ := hclean
  have hlowH : lowerStr u.host = u.host := lowerStr_invariant (fun c hc => (hh2 c hc).2.2.2)
  have hn1 : Deduplicator.normalizeUrl s =
      String.mk (u.scheme ++ ':' :: '/' :: '/' :: hostStripped (lowerStr u.host) ++
        pathStripped u.path ++
        (if (renderQuery (normalizedParams u.query)).isEmpty then []
         else '?' :: renderQuery (normalizedParams u.query))) := by
    unfold Deduplicator.normalizeUrl
    simp only [normalizeUrlList, hparse]
  have hhost1chars : ∀ c ∈ hostStripped (lowerStr u.host),
      ¬ isAuthorityEnd c ∧ c ≠ '@' ∧ c ≠ ':' ∧ jsCharLower c = c := by
    intro c hc
    rw [hlowH] at hc
    exact hh2 c (mem_hostStripped hc)
  have hpath1ne : pathStripped u.path ≠ [] := pathStripped_ne_nil hp1
  have hpath1hd : (pathStripped u.path).headD ' ' = '/' := by
    rw [pathStripped_headD]
    exact hp2
  have hpath1chars : ∀ c ∈ pathStripped u.path, ¬ isPathEnd c := by
    intro c hc
    exact hp3 c (mem_pathStripped hc)
  have hu2 : CleanUrl ⟨u.scheme, hostStripped (lowerStr u.host), pathStripped u.path,
      renderQuery (normalizedParams u.query)⟩ := by
    refine ⟨hs1, hs2, hs3, hne, ?_, hpath1ne, hpath1hd, ?_⟩
    · intro c hc
      exact hhost1chars c hc
    · intro c hc
      exact hpath1chars c hc
  have hqhash : ∀ c ∈ renderQuery (normalizedParams u.query), c ≠ '#' := by
    intro c hc he
    exact hash_not_mem_renderQuery hq (he ▸ hc)
  have hparse2 := parseUrl_render _ hu2 hqhash
  dsimp only at hparse2
  rw [hn1]
  unfold Deduplicator.normalizeUrl
  rw [toList_mk]
  simp only [normalizeUrlList, hparse2]
  have hlow1 : lowerStr (hostStripped (lowerStr u.host)) = hostStripped (lowerStr u.host) :=
    lowerStr_invariant (fun c hc => (hhost1chars c hc).2.2.2)
  have hhs2 : hostStripped (hostStripped (lowerStr u.host)) = hostStripped (lowerStr u.host) := by
    rw [hostStripped, if_neg hww]
  have hps2 : pathStripped (pathStripped u.path) = pathStripped u.path := by
    rw [pathStripped, if_neg hsl]
  rw [hlow1, hhs2, hps2, normalizedParams_render hq]

/-- C5 (amended): URL normalization is not idempotent in general (each call
strips only one leading `www.` from the hostname and one trailing slash
from the path); it is idempotent (a) on malformed inputs without a scheme
separator, which fall back to the idempotent lowercasing, and (b) on every
parseable `scheme://host/path?query` URL with delimiter-free components
whose once-stripped host is non-empty and not still `www.`-prefixed and
whose once-stripped path does not still end in a slash. -/
theorem C5_normalizeUrl_idempotent :
    (∀ s : String, ':' ∉ s.toList →
      Deduplicator.normalizeUrl (Deduplicator.normalizeUrl s) = Deduplicator.normalizeUrl s) ∧
    (∀ (s : String) (u : UrlParts), parseUrl s.toList = some u → CleanUrl u →
      CleanPairs (normalizedParams u.query) →
      hostStripped (lowerStr u.host) ≠ [] →
      ¬ wwwDot.isPrefixOf (hostStripped (lowerStr u.host)) →
      ¬ (1 < (pathStripped u.path).length ∧ (pathStripped u.path).getLastD ' ' = '/') →
      Deduplicator.normalizeUrl (Deduplicator.normalizeUrl s) = Deduplicator.normalizeUrl s) :=
  ⟨fun _ h => normalizeUrl_fallback_idem h,
   fun s u h1 h2 h3 h4 h5 h6 => normalizeUrl_parsed_idem s u h1 h2 h3 h4 h5 h6⟩

/-- C5 witness: idempotence on a malformed input and on a clean URL whose
query needs sorting. -/
theorem C5_normalizeUrl_idempotent_witness :
    Deduplicator.normalizeUrl (Deduplicator.normalizeUrl "not-a-url") =
      Deduplicator.normalizeUrl "not-a-url" ∧
    Deduplicator.normalizeUrl (Deduplicator.normalizeUrl "https://example.com/a?b=1&a=2") =
      Deduplicator.normalizeUrl "https://example.com/a?b=1&a=2" :=
  ⟨C5_normalizeUrl_idempotent.1 "not-a-url" (by decide),
   C5_normalizeUrl_idempotent.2 "https://example.com/a?b=1&a=2"
     ⟨"https".toList, "example.com".toList, "/a".toList, "b=1&a=2".toList⟩
     (by decide) (by decide) (by decide) (by decide) (by decide) (by decide)⟩

/-- C5 counterexample: `www.`-stripping removes one prefix per call, so a
`www.www.` host breaks `normalize(normalize(u)) = normalize(u)`. -/
theorem C5_normalizeUrl_idempotent_counterexample :
    Deduplicator.normalizeUrl (Deduplicator.normalizeUrl "http://www.www.example.com/x") ≠
      Deduplicator.normalizeUrl "http://www.www.example.com/x" ∧
    Deduplicator.normalizeUrl "http://www.www.example.com/x" = "http://www.example.com/x" ∧
    Deduplicator.normalizeUrl (Deduplicator.normalizeUrl "http://www.www.example.com/x") =
      "http://example.com/x" :=
  ⟨by decide, by decide, by decide⟩

/-- C3 (amended): for every (non-empty) result list and query,
`HybridBM25Scorer.scoreAll` divides each BM25 score by the larger of the
batch maximum and 1 — `Math.max(...scores, 1)`, so batches whose maximum is
below 1 are left unscaled — then blends linearly with the recency and
domain-authority signals using the configured weights (constructor default
0.6/0.2/0.2) and clamps the result at 1. -/
theorem C3_hybrid_blend :
    defaultHybridWeights = ⟨6/10, 2/10, 2/10⟩ ∧
    ∀ (w : HybridWeights) (td : List String) (now : ℝ) (results : List SearchResult)
      (query : String), results ≠ [] →
      ∀ x ∈ Hybrid.scoreAll w td now results query,
        x.score = min 1
          (x.bm25Score / Hybrid.normDivisor ((BM25.bmScoreAll (3/2) (3/4) 0 results query).map
              (fun r => r.bm25Score)) * w.bm25 +
            Hybrid.recencyScore now ((x.base.timestamp : ℚ) : ℝ) * w.recency +
            Hybrid.domainScore td x.base.url * w.domainAuthority) := by
  refine ⟨rfl, ?_⟩
  intro w td now results query hne x hx
  unfold Hybrid.scoreAll at hx
  rw [mem_sortBy] at hx
  obtain ⟨y, hy, rfl⟩ := List.mem_map.mp hx
  rfl

/-- C3 witness: the amended statement instantiated on a one-element batch. -/
theorem C3_hybrid_blend_witness :
    defaultHybridWeights = ⟨6/10, 2/10, 2/10⟩ ∧
    ∀ x ∈ Hybrid.scoreAll defaultHybridWeights [] 0 [rBM] "aa",
      x.score = min 1
        (x.bm25Score / Hybrid.normDivisor ((BM25.bmScoreAll (3/2) (3/4) 0 [rBM] "aa").map
            (fun r => r.bm25Score)) * defaultHybridWeights.bm25 +
          Hybrid.recencyScore 0 ((x.base.timestamp : ℚ) : ℝ) * defaultHybridWeights.recency +
          Hybrid.domainScore [] x.base.url * defaultHybridWeights.domainAuthority) :=
  ⟨C3_hybrid_blend.1, C3_hybrid_blend.2 defaultHybridWeights [] 0 [rBM] "aa" (by simp)⟩

theorem bmScoreAll_rBM :
    BM25.bmScoreAll (3/2) (3/4) 0 [rBM] "aa" =
      [⟨rBM, Real.log (4/3) * (10/7)⟩] := by
  have hdt : BM25.docTokens rBM = [['a','a'], ['a','a']] := by decide
  have hdf : BM25.dfOf [rBM] ['a','a'] = 1 := by decide
  have hdl : BM25.docLen rBM = 2 := by decide
  have havg : BM25.avgdl [rBM] = 2 := by
    unfold BM25.avgdl
    rw [show ([rBM].map BM25.docLen).sum = 2 from by decide,
      show max ([rBM] : List SearchResult).length 1 = 1 from by decide]
    norm_num
  have hidf : BM25.idfOf [rBM] ['a','a'] = Real.log (4/3) := by
    unfold BM25.idfOf
    rw [hdf, show ([rBM] : List SearchResult).length = 1 from rfl]
    norm_num
  have hql : BM25.tokenizeB (lowerStr "aa".toList) = [['a','a']] := by decide
  have hsd : BM25.scoreDocument (3/2) (3/4) 0 [rBM] rBM [['a','a']] =
      Real.log (4/3) * (10/7) := by
    unfold BM25.scoreDocument
    rw [List.foldl_cons, List.foldl_nil]
    simp only [hdt]
    rw [show ([['a','a'], ['a','a']] : List (List Char)).count ['a','a'] = 2 from by decide]
    rw [if_neg (by norm_num), hidf, hdl, havg]
    push_cast
    ring_nf
  unfold BM25.bmScoreAll
  rw [hql]
  simp only [List.map_cons, List.map_nil, hsd]
  simp [sortBy, insertBy]

theorem log43_pos : 0 < Real.log (4/3) := Real.log_pos (by norm_num)

theorem log43_lt : Real.log (4/3) < 1/3 := by
  have h := Real.log_lt_sub_one_of_pos (x := 4/3) (by norm_num) (by norm_num)
  linarith

theorem hybrid_code_rBM :
    Hybrid.scoreAll defaultHybridWeights [] 0 [rBM] "aa" =
      [⟨rBM, Real.log (4/3) * (10/7) * (6/10) + 13/50, Real.log (4/3) * (10/7)⟩] := by
  have hB1 : Real.log (4/3) * (10/7) ≤ 1 := by nlinarith [log43_lt, log43_pos]
  unfold Hybrid.scoreAll
  rw [bmScoreAll_rBM]
  simp only [List.map_cons, List.map_nil]
  have hdivisor : Hybrid.normDivisor [Real.log (4/3) * (10/7)] = 1 := by
    unfold Hybrid.normDivisor
    rw [List.foldl_cons, List.foldl_nil]
    exact max_eq_left hB1
  rw [hdivisor]
  have hrec : Hybrid.recencyScore 0 ((rBM.timestamp : ℚ) : ℝ) = 1 := by
    unfold Hybrid.recencyScore
    rw [show ((rBM.timestamp : ℚ) : ℝ) = 0 by norm_num [rBM]]
    rw [max_eq_right (by norm_num)]
    norm_num
  have hdom : Hybrid.domainScore [] rBM.url = 3/10 := by
    unfold Hybrid.domainScore
    rw [show parseUrl (rBM.url.toList) = none from by decide]
  rw [hrec, hdom]
  have hmin : min 1 (Real.log (4/3) * (10/7) / 1 * defaultHybridWeights.bm25 +
      1 * defaultHybridWeights.recency + 3/10 * defaultHybridWeights.domainAuthority) =
      Real.log (4/3) * (10/7) * (6/10) + 13/50 := by
    rw [show defaultHybridWeights = ⟨6/10, 2/10, 2/10⟩ from rfl]
    rw [min_eq_right (by nlinarith [log43_lt, log43_pos])]
    ring_nf
  simp only [hmin]
  simp [sortBy, insertBy]

theorem hybrid_spec_rBM :
    Hybrid.scoreAllSpec defaultHybridWeights [] 0 [rBM] "aa" =
      [⟨rBM, 43/50, Real.log (4/3) * (10/7)⟩] := by
  have hB0 : 0 < Real.log (4/3) * (10/7) := by nlinarith [log43_pos]
  unfold Hybrid.scoreAllSpec
  rw [bmScoreAll_rBM]
  simp only [List.map_cons, List.map_nil]
  have hbatch : Hybrid.batchMax [Real.log (4/3) * (10/7)] = Real.log (4/3) * (10/7) := by
    unfold Hybrid.batchMax
    rw [List.foldl_cons, List.foldl_nil]
    exact max_eq_right hB0.le
  rw [hbatch]
  have hrec : Hybrid.recencyScore 0 ((rBM.timestamp : ℚ) : ℝ) = 1 := by
    unfold Hybrid.recencyScore
    rw [show ((rBM.timestamp : ℚ) : ℝ) = 0 by norm_num [rBM]]
    rw [max_eq_right (by norm_num)]
    norm_num
  have hdom : Hybrid.domainScore [] rBM.url = 3/10 := by
    unfold Hybrid.domainScore
    rw [show parseUrl (rBM.url.toList) = none from by decide]
  rw [hrec, hdom]
  have hdiv : Real.log (4/3) * (10/7) / (Real.log (4/3) * (10/7)) = 1 :=
    div_self (ne_of_gt hB0)
  have hmin : min 1 (Real.log (4/3) * (10/7) / (Real.log (4/3) * (10/7)) *
      defaultHybridWeights.bm25 + 1 * defaultHybridWeights.recency +
      3/10 * defaultHybridWeights.domainAuthority) = 43/50 := by
    rw [hdiv, show defaultHybridWeights = ⟨6/10, 2/10, 2/10⟩ from rfl]
    rw [min_eq_right (by norm_num)]
    norm_num
  simp only [hmin]
  simp [sortBy, insertBy]

/-- C3 counterexample: on a one-element batch whose only BM25 score is
`log(4/3)·10/7 ≈ 0.41`, the claimed normalization (divide by the batch
maximum) would yield a normalized score of 1 and a final score of 0.86,
but the code divides by `max(0.41, 1) = 1` and produces a smaller score —
the two pipelines disagree. -/
theorem C3_hybrid_blend_counterexample :
    (Hybrid.scoreAll defaultHybridWeights [] 0 [rBM] "aa").map (fun x => x.score) ≠
      (Hybrid.scoreAllSpec defaultHybridWeights [] 0 [rBM] "aa").map (fun x => x.score) := by
  rw [hybrid_code_rBM, hybrid_spec_rBM]
  simp only [List.map_cons, List.map_nil, ne_eq, List.cons.injEq, and_true]
  have hlt : Real.log (4/3) * (10/7) * (6/10) + 13/50 < 43/50 := by
    nlinarith [log43_lt, log43_pos]
  exact fun h => absurd h (ne_of_lt hlt)
